import Mathlib

/-!
Verification of the cxx::stack container from exception-safe-stack
(src/exception-safe-stack/stack.h): a key-addressable LIFO container with
copy-on-write sharing and strong exception guarantees.

Modelling conventions (shallow embedding of stack.h):

* main_stack (std::list of pairs of a shared key pointer and a value) is a
  List of entries (position, key, value), most recently pushed first.  A
  std::list iterator is identified by the entry's position number:
  positions are handed out by a counter that only grows, which mirrors the
  stability of std::list iterators under insertion and erasure elsewhere
  in the list.  Positions therefore also record push order: a later push
  always receives a strictly larger position.
* stacks_map (a std::map from shared key pointers to std::stack of
  main_stack iterators, compared by KComp) is an association list sorted
  strictly ascending by key, each key mapped to the list of positions of
  its live entries, most recent first.  KComp dereferences the pointers,
  so the map is keyed by the key value itself; the shared_ptr interning of
  keys (stack.h lines 192-198) is a memory-layout detail with no
  observable effect and is not modelled.
* the two shared_ptr members of cxx::stack are modelled as two Option
  fields; none models a null shared_ptr (use_count() == 0, the state that
  clear() leaves behind).
* a C++ execution path that is undefined behaviour (dereferencing a null
  shared_ptr, std::stack::pop or top on an empty stack, dereferencing the
  end iterator returned by a failed find) is modelled by the error value
  Err.undefinedBehavior.
* sharing of storage between several stack instances and the
  use_count() > 2 test of about_to_modify are modelled separately by the
  World structure further below; the operations here describe the effect
  of one operation on the storage the instance ends up mutating.
-/

namespace ExcStack

/-- One entry of main_stack: (position, key, value). -/
abbrev Entry (K V : Type) := Nat × K × V

/-- The stacks_map: keys, each with the positions of its entries, most
recent first. -/
abbrev SM (K : Type) := List (K × List Nat)

/-- The two failure kinds of the public interface, plus a marker for C++
paths that are undefined behaviour. -/
inductive Err where
  | emptyContainer
  | keyNotFound
  | undefinedBehavior
deriving DecidableEq

/-- std::map::find on the association list (stack.h line 195 and similar):
the positions stored under key k, if the key is present. -/
def findSM {K : Type} [LinearOrder K] : SM K → K → Option (List Nat)
  | [], _ => none
  | e :: rest, k => if e.1 = k then some e.2 else findSM rest k

/-- Replace the positions stored under an existing key (the in-place
mutation of an existing mapped std::stack). -/
def updateSM {K : Type} [LinearOrder K] : SM K → K → List Nat → SM K
  | [], _, _ => []
  | e :: rest, k, l => if e.1 = k then (k, l) :: rest else e :: updateSM rest k l

/-- std::map::insert of a key that is not yet present (stack.h line 107):
the new mapping lands at its ordered position. -/
def insertSorted {K : Type} [LinearOrder K] : SM K → K → List Nat → SM K
  | [], k, l => [(k, l)]
  | e :: rest, k, l => if e.1 < k then e :: insertSorted rest k l else (k, l) :: e :: rest

/-- std::map::erase of a key (stack.h lines 229 and 249). -/
def eraseSM {K : Type} [LinearOrder K] : SM K → K → SM K
  | [], _ => []
  | e :: rest, k => if e.1 = k then rest else e :: eraseSM rest k

/-- std::list::erase at the iterator with position p
(stack.h line 246). -/
def eraseId {K V : Type} : List (Entry K V) → Nat → List (Entry K V)
  | [], _ => []
  | e :: rest, p => if e.1 = p then rest else e :: eraseId rest p

/-- Dereference the iterator with position p (stack.h line 280 and 293):
the value of the entry at that position. -/
def lookupId {K V : Type} : List (Entry K V) → Nat → Option V
  | [], _ => none
  | e :: rest, p => if e.1 = p then some e.2.2 else lookupId rest p

/-- The positions of the entries carrying key k, most recent first. -/
def keyIds {K V : Type} [LinearOrder K] : List (Entry K V) → K → List Nat
  | [], _ => []
  | e :: rest, k => if e.2.1 = k then e.1 :: keyIds rest k else keyIds rest k

/-- The values of the entries carrying key k, most recent first (reverse
push order). -/
def keyVals {K V : Type} [LinearOrder K] : List (Entry K V) → K → List V
  | [], _ => []
  | e :: rest, k => if e.2.1 = k then e.2.2 :: keyVals rest k else keyVals rest k

/-- keyIds bundled the way the invariant states it: none when the key has
no live entry. -/
def keyIdsOpt {K V : Type} [LinearOrder K] (ms : List (Entry K V)) (k : K) :
    Option (List Nat) :=
  match keyIds ms k with
  | [] => none
  | l => some l

/-- The cxx::stack instance: the two shared_ptr members (none models a
null pointer), the shareable flag, and the position counter that models
std::list iterator identity. -/
structure stack (K V : Type) where
  main_stack : Option (List (Entry K V))
  stacks_map : Option (SM K)
  shareable : Bool
  counter : Nat
deriving DecidableEq

variable {K V : Type} [LinearOrder K]

/-- The default constructor (stack.h lines 166-169): fresh empty storage,
shareable. -/
def emptyStack : stack K V := ⟨some [], some [], true, 0⟩

/-- The stacks_map update performed by push (stack.h lines 203-213): push
the new position onto the key's stack, inserting a fresh mapping for a
key that was not present. -/
def pushSM (sm : SM K) (k : K) (c : Nat) : SM K :=
  match findSM sm k with
  | some st => updateSM sm k (c :: st)
  | none => insertSorted sm k [c]

/-- The stacks_map update shared by pop and pop(k) (stack.h lines 227-230
and 247-250): the key's stack with its top already popped is st; the
mapping is erased when st is empty. -/
def dropTopSM (sm : SM K) (k : K) (st : List Nat) : SM K :=
  match st with
  | [] => eraseSM sm k
  | _ => updateSM sm k st

/-- push (stack.h lines 192-217).  about_to_modify allocates fresh empty
storage when the pointers are null, and leaves the instance shareable.
The new entry goes to the front of main_stack and its position on top of
its key's stack.  push has no logical failure condition; the case of a
non-null main_stack together with a null stacks_map (where the C++ would
dereference a null pointer) cannot occur in any completed execution and
is completed totally here by treating the map as empty. -/
def push (k : K) (v : V) (s : stack K V) : stack K V :=
  let ms := s.main_stack.getD []
  let sm := match s.main_stack with
    | none => []
    | some _ => s.stacks_map.getD []
  ⟨some ((s.counter, k, v) :: ms), some (pushSM sm k s.counter), true,
    s.counter + 1⟩

/-- pop (stack.h lines 219-233): fails on a container with null or empty
main_stack, otherwise removes the front entry, pops its key's stack and
erases the key when that stack becomes empty.  The instance is left
shareable. -/
def pop (s : stack K V) : Except Err (stack K V) :=
  match s.main_stack with
  | none => .error Err.emptyContainer
  | some [] => .error Err.emptyContainer
  | some (e :: rest) =>
    match s.stacks_map with
    | none => .error Err.undefinedBehavior
    | some sm =>
      match findSM sm e.2.1 with
      | none => .error Err.undefinedBehavior
      | some [] => .error Err.undefinedBehavior
      | some (_ :: st) =>
        .ok ⟨some rest, some (dropTopSM sm e.2.1 st), true, s.counter⟩

/-- pop(k) (stack.h lines 235-252): about_to_modify runs first (allocating
fresh empty storage when the pointers are null; its rollback restores the
original state on the failure path), then the entry at the position on
top of the key's stack is erased from main_stack. -/
def popKey (k : K) (s : stack K V) : Except Err (stack K V) :=
  let ms := s.main_stack.getD []
  let smo := match s.main_stack with
    | none => some []
    | some _ => s.stacks_map
  match smo with
  | none => .error Err.undefinedBehavior
  | some sm =>
    match findSM sm k with
    | none => .error Err.keyNotFound
    | some [] => .error Err.keyNotFound
    | some (p :: st) =>
      .ok ⟨some (eraseId ms p), some (dropTopSM sm k st), true, s.counter⟩

/-- front() const (stack.h lines 254-260): read-only references to the
key and value of the front entry. -/
def frontRO (s : stack K V) : Except Err (K × V) :=
  match s.main_stack with
  | none => .error Err.emptyContainer
  | some [] => .error Err.emptyContainer
  | some (e :: _) => .ok (e.2.1, e.2.2)

/-- front() mutable (stack.h lines 262-270): same references, but
about_to_modify(*this, false) marks the instance non-shareable before
they are handed out. -/
def frontMut (s : stack K V) : Except Err ((K × V) × stack K V) :=
  match s.main_stack with
  | none => .error Err.emptyContainer
  | some [] => .error Err.emptyContainer
  | some (e :: _) => .ok ((e.2.1, e.2.2), { s with shareable := false })

/-- front(k) mutable (stack.h lines 272-281): about_to_modify(*this,
false) runs first (allocating fresh empty storage when the pointers are
null; its rollback restores the original state on the failure path), then
the value at the top of the key's stack is returned. -/
def frontKeyMut (k : K) (s : stack K V) : Except Err (V × stack K V) :=
  let ms := s.main_stack.getD []
  let smo := match s.main_stack with
    | none => some []
    | some _ => s.stacks_map
  match smo with
  | none => .error Err.undefinedBehavior
  | some sm =>
    match findSM sm k with
    | none => .error Err.keyNotFound
    | some [] => .error Err.keyNotFound
    | some (p :: _) =>
      match lookupId ms p with
      | none => .error Err.undefinedBehavior
      | some v => .ok (v, { s with shareable := false })

/-- front(k) const (stack.h lines 283-294): a null main_stack reports the
key as missing; otherwise the value at the top of the key's stack is
returned read-only. -/
def frontKeyRO (k : K) (s : stack K V) : Except Err V :=
  match s.main_stack with
  | none => .error Err.keyNotFound
  | some ms =>
    match s.stacks_map with
    | none => .error Err.undefinedBehavior
    | some sm =>
      match findSM sm k with
      | none => .error Err.keyNotFound
      | some [] => .error Err.keyNotFound
      | some (p :: _) =>
        match lookupId ms p with
        | none => .error Err.undefinedBehavior
        | some v => .ok v

/-- size (stack.h lines 296-301): 0 on a null main_stack. -/
def size (s : stack K V) : Nat :=
  match s.main_stack with
  | none => 0
  | some ms => ms.length

/-- count (stack.h lines 303-312): 0 on a null main_stack, otherwise the
size of the key's stack in stacks_map.  Dereferencing stacks_map when it
is null while main_stack is not (the state the failed allocation of
pushAllocFailStacksMap leaves behind) is undefined behaviour, modelled as
none. -/
def count (k : K) (s : stack K V) : Option Nat :=
  match s.main_stack with
  | none => some 0
  | some _ =>
    match s.stacks_map with
    | none => none
    | some sm =>
      match findSM sm k with
      | none => some 0
      | some st => some st.length

/-- clear (stack.h lines 314-318): release both pointers, become
shareable again. -/
def clear (_s : stack K V) : stack K V := ⟨none, none, true, 0⟩

/-- Key iteration from cbegin() to cend() (stack.h lines 320-384): the
keys of stacks_map in map order; empty when stacks_map is null. -/
def keys (s : stack K V) : List K :=
  match s.stacks_map with
  | none => []
  | some sm => sm.map Prod.fst

/-- The values of the entries with key k as observed through the
container, most recent first. -/
def keyValsS (s : stack K V) (k : K) : List V :=
  keyVals (s.main_stack.getD []) k

/-- The deep copy taken by about_to_modify and by the copy constructor of
a non-shareable source (stack.h lines 54-56 and 155-162): a fresh stack
built by replaying the entries oldest first through push. -/
def privatize (s : stack K V) : stack K V :=
  List.foldl (fun acc e => push e.2.1 e.2.2 acc) emptyStack
    (s.main_stack.getD []).reverse

/-- The state left behind when push is called on a storage-less instance
(both pointers null, as after clear()) and, inside the about_to_modify
constructor (stack.h lines 49-52), the allocation of the fresh main_stack
succeeds but the allocation of the fresh stacks_map throws: the
constructor body never completes, so the rollback in the destructor never
runs, and the instance keeps the freshly assigned empty main_stack with a
still-null stacks_map. -/
def pushAllocFailStacksMap (s : stack K V) : stack K V :=
  ⟨some [], s.stacks_map, s.shareable, s.counter⟩

/-- Observational equality of two stack instances: same size, same
front, same per-key counts, same key iteration. -/
def ObsEqS (s t : stack K V) : Prop :=
  size s = size t ∧ frontRO s = frontRO t ∧
    (∀ k, count k s = count k t) ∧ keys s = keys t

/-! The cross-structure invariant (spec section 3): stacks_map is sorted
strictly by key and maps every key to exactly the positions of that key's
live entries, most recent first; main_stack positions are strictly
decreasing (newer entries carry larger positions) and all below the
counter. -/

def InvD (c : Nat) (ms : List (Entry K V)) (sm : SM K) : Prop :=
  (sm.Pairwise fun a b => a.1 < b.1) ∧
  (∀ k, findSM sm k = keyIdsOpt ms k) ∧
  (ms.Pairwise fun a b => b.1 < a.1) ∧
  (∀ e ∈ ms, e.1 < c)

/-- The invariant of a stack instance: either fully detached (both
pointers null, as after clear) or carrying consistent storage. -/
def Inv (s : stack K V) : Prop :=
  match s.main_stack, s.stacks_map with
  | none, none => True
  | some ms, some sm => InvD s.counter ms sm
  | _, _ => False

/-- The public operations that can change the state of one instance. -/
inductive Op (K V : Type) where
  | push (k : K) (v : V)
  | pop
  | popKey (k : K)
  | frontMut
  | frontKeyMut (k : K)
  | clear

/-- Apply one public operation; an operation that reports an error leaves
the instance as it was (the rollback semantics of the guards). -/
def applyOp (o : Op K V) (s : stack K V) : stack K V :=
  match o with
  | .push k v => push k v s
  | .pop =>
    match pop s with
    | .ok s2 => s2
    | .error _ => s
  | .popKey k =>
    match popKey k s with
    | .ok s2 => s2
    | .error _ => s
  | .frontMut =>
    match frontMut s with
    | .ok r => r.2
    | .error _ => s
  | .frontKeyMut k =>
    match frontKeyMut k s with
    | .ok r => r.2
    | .error _ => s
  | .clear => clear s

/-- Run a sequence of public operations from a freshly constructed
stack. -/
def run (ops : List (Op K V)) : stack K V :=
  List.foldl (fun s o => applyOp o s) emptyStack ops

/-! Sequences of pushes and global pops, for the size law (spec section
8): some (k, v) is a push, none is a pop(). -/

def runFromPP : stack K V → List (Option (K × V)) → stack K V
  | s, [] => s
  | s, some kv :: rest => runFromPP (push kv.1 kv.2 s) rest
  | s, none :: rest =>
    match pop s with
    | .ok s2 => runFromPP s2 rest
    | .error _ => runFromPP s rest

/-- The sequence performs only successful pops. -/
def ValidFromPP : stack K V → List (Option (K × V)) → Prop
  | _, [] => True
  | s, some kv :: rest => ValidFromPP (push kv.1 kv.2 s) rest
  | s, none :: rest => ∃ s2, pop s = .ok s2 ∧ ValidFromPP s2 rest

def nPush : List (Option (K × V)) → Nat
  | [] => 0
  | some _ :: rest => nPush rest + 1
  | none :: rest => nPush rest

def nPop : List (Option (K × V)) → Nat
  | [] => 0
  | some _ :: rest => nPop rest
  | none :: rest => nPop rest + 1

/-- The stack of the concrete scenario of spec section 8, after
push(x, 1); push(y, 2); push(x, 3).  The one-character string keys are
modelled by Char (the ordering of distinct characters matches that of the
one-character strings). -/
def c1s3 : stack Char Nat := push 'x' 3 (push 'y' 2 (push 'x' 1 emptyStack))

/-- The (key, value) projection of the container's entries, most recent
first: what the replay performed by the deep copy preserves. -/
def kvs (s : stack K V) : List (K × V) :=
  (s.main_stack.getD []).map fun e => (e.2.1, e.2.2)

/-- The values carried by key k in a (key, value) sequence. -/
def kvVals : List (K × V) → K → List V
  | [], _ => []
  | e :: rest, k => if e.1 = k then e.2 :: kvVals rest k else kvVals rest k

/-! Copy-on-write sharing between stack instances (stack.h lines 44-77
and 171-181).  Storage cells live in a heap addressed by natural numbers;
an instance holds the address of its storage (none models null pointers)
and its shareable flag.  The two shared_ptr members always travel
together outside the failed-allocation window, so one cell models the
pair.  use_count() of a storage equals the number of instances holding
its address plus, inside about_to_modify, one for the guard's saved copy;
the test use_count() > 2 of stack.h line 53 therefore reads: at least one
other instance shares the storage. -/

structure Inst where
  sid : Option Nat
  shareable : Bool
deriving DecidableEq

/-- A world of stack instances: the heap of storage cells (each a stack
record with both pointers non-null; a cell's own shareable flag is
meaningless and kept as built), the next fresh address, and the
instances. -/
structure World (K V : Type) where
  heap : List (Nat × stack K V)
  next : Nat
  insts : List Inst

def heapFind {K V : Type} : List (Nat × stack K V) → Nat → Option (stack K V)
  | [], _ => none
  | e :: rest, a => if e.1 = a then some e.2 else heapFind rest a

def heapSet {K V : Type} : List (Nat × stack K V) → Nat → stack K V →
    List (Nat × stack K V)
  | [], _, _ => []
  | e :: rest, a, c => if e.1 = a then (a, c) :: rest else e :: heapSet rest a c

def instGet : List Inst → Nat → Inst
  | [], _ => ⟨none, true⟩
  | x :: _, 0 => x
  | _ :: rest, n + 1 => instGet rest n

def setInst : List Inst → Nat → Inst → List Inst
  | [], _, _ => []
  | _ :: rest, 0, b => b :: rest
  | x :: rest, n + 1, b => x :: setInst rest n b

/-- The storage cell at address a (meaningful when a is allocated). -/
def cellAt (w : World K V) (a : Nat) : stack K V :=
  (heapFind w.heap a).getD emptyStack

/-- The number of instances holding the storage at address a: the
use_count() of its shared_ptr members as seen outside about_to_modify. -/
def useCount : List Inst → Nat → Nat
  | [], _ => 0
  | x :: rest, a => (if x.sid = some a then 1 else 0) + useCount rest a

/-- Default-construct a new instance (stack.h lines 166-169): fresh
empty storage, appended as a new instance. -/
def wNew (w : World K V) : World K V :=
  ⟨w.heap ++ [(w.next, emptyStack)], w.next + 1, w.insts ++ [⟨some w.next, true⟩]⟩

/-- Copy-construct a new instance from instance a (stack.h lines
171-181): alias the storage when the source is shareable, otherwise build
fresh private storage by replaying the source's entries through push. -/
def wCopy (w : World K V) (a : Nat) : World K V :=
  if (instGet w.insts a).shareable then
    ⟨w.heap, w.next, w.insts ++ [⟨(instGet w.insts a).sid, true⟩]⟩
  else
    match (instGet w.insts a).sid with
    | none =>
      ⟨w.heap ++ [(w.next, emptyStack)], w.next + 1,
        w.insts ++ [⟨some w.next, true⟩]⟩
    | some x =>
      ⟨w.heap ++ [(w.next, privatize (cellAt w x))], w.next + 1,
        w.insts ++ [⟨some w.next, true⟩]⟩

/-- push on instance i (stack.h lines 192-217 with the about_to_modify
branches of lines 49-58): allocate fresh storage when the instance has
none, deep-copy first when another instance shares the storage, else
mutate in place. -/
def wPush (w : World K V) (i : Nat) (k : K) (v : V) : World K V :=
  match (instGet w.insts i).sid with
  | none =>
    ⟨w.heap ++ [(w.next, push k v (⟨none, none, true, 0⟩ : stack K V))],
      w.next + 1, setInst w.insts i ⟨some w.next, true⟩⟩
  | some a =>
    if useCount w.insts a + 1 > 2 then
      ⟨w.heap ++ [(w.next, push k v (privatize (cellAt w a)))],
        w.next + 1, setInst w.insts i ⟨some w.next, true⟩⟩
    else
      ⟨heapSet w.heap a (push k v (cellAt w a)), w.next,
        setInst w.insts i ⟨some a, true⟩⟩

/-- pop() on instance i: the emptiness check precedes the guard; an error
leaves the world unchanged (rollback). -/
def wPop (w : World K V) (i : Nat) : Except Err (World K V) :=
  match (instGet w.insts i).sid with
  | none => .error Err.emptyContainer
  | some a =>
    if size (cellAt w a) = 0 then .error Err.emptyContainer
    else if useCount w.insts a + 1 > 2 then
      match pop (privatize (cellAt w a)) with
      | .ok c =>
        .ok ⟨w.heap ++ [(w.next, c)], w.next + 1,
          setInst w.insts i ⟨some w.next, true⟩⟩
      | .error e => .error e
    else
      match pop (cellAt w a) with
      | .ok c => .ok ⟨heapSet w.heap a c, w.next, setInst w.insts i ⟨some a, true⟩⟩
      | .error e => .error e

/-- pop(k) on instance i: the guard runs first (allocating or
privatizing), and its rollback restores the instance unchanged when the
key is missing. -/
def wPopKey (w : World K V) (i : Nat) (k : K) : Except Err (World K V) :=
  match (instGet w.insts i).sid with
  | none =>
    match popKey k (⟨none, none, true, 0⟩ : stack K V) with
    | .ok c =>
      .ok ⟨w.heap ++ [(w.next, c)], w.next + 1,
        setInst w.insts i ⟨some w.next, true⟩⟩
    | .error e => .error e
  | some a =>
    if useCount w.insts a + 1 > 2 then
      match popKey k (privatize (cellAt w a)) with
      | .ok c =>
        .ok ⟨w.heap ++ [(w.next, c)], w.next + 1,
          setInst w.insts i ⟨some w.next, true⟩⟩
      | .error e => .error e
    else
      match popKey k (cellAt w a) with
      | .ok c => .ok ⟨heapSet w.heap a c, w.next, setInst w.insts i ⟨some a, true⟩⟩
      | .error e => .error e

/-- front() mutable on instance i: returns the references (as the pair of
key and value), the new world, and the address of the storage the
references point into; the instance becomes non-shareable. -/
def wFrontMut (w : World K V) (i : Nat) :
    Except Err ((K × V) × World K V × Nat) :=
  match (instGet w.insts i).sid with
  | none => .error Err.emptyContainer
  | some a =>
    if size (cellAt w a) = 0 then .error Err.emptyContainer
    else if useCount w.insts a + 1 > 2 then
      match frontRO (privatize (cellAt w a)) with
      | .ok p =>
        .ok (p, ⟨w.heap ++ [(w.next, privatize (cellAt w a))], w.next + 1,
          setInst w.insts i ⟨some w.next, false⟩⟩, w.next)
      | .error e => .error e
    else
      match frontRO (cellAt w a) with
      | .ok p => .ok (p, ⟨w.heap, w.next, setInst w.insts i ⟨some a, false⟩⟩, a)
      | .error e => .error e

/-- front(k) mutable on instance i: the guard runs first; on success the
value reference points into the storage at the returned address and the
instance becomes non-shareable. -/
def wFrontKeyMut (w : World K V) (i : Nat) (k : K) :
    Except Err (V × World K V × Nat) :=
  match (instGet w.insts i).sid with
  | none =>
    match frontKeyMut k (⟨none, none, true, 0⟩ : stack K V) with
    | .ok r =>
      .ok (r.1, ⟨w.heap ++ [(w.next, r.2)], w.next + 1,
        setInst w.insts i ⟨some w.next, false⟩⟩, w.next)
    | .error e => .error e
  | some a =>
    if useCount w.insts a + 1 > 2 then
      match frontKeyMut k (privatize (cellAt w a)) with
      | .ok r =>
        .ok (r.1, ⟨w.heap ++ [(w.next, privatize (cellAt w a))], w.next + 1,
          setInst w.insts i ⟨some w.next, false⟩⟩, w.next)
      | .error e => .error e
    else
      match frontKeyMut k (cellAt w a) with
      | .ok r => .ok (r.1, ⟨w.heap, w.next, setInst w.insts i ⟨some a, false⟩⟩, a)
      | .error e => .error e

/-- Overwrite the value of the entry at position p (the effect of writing
through a mutable value reference returned by front() or front(k)). -/
def setValList : List (Entry K V) → Nat → V → List (Entry K V)
  | [], _, _ => []
  | e :: rest, p, v => if e.1 = p then (e.1, e.2.1, v) :: rest else e :: setValList rest p v

def setValAt (p : Nat) (v : V) (s : stack K V) : stack K V :=
  match s.main_stack with
  | none => s
  | some ms => ⟨some (setValList ms p v), s.stacks_map, s.shareable, s.counter⟩

/-- Write a value through a reference into the storage at address t. -/
def wWriteAt (w : World K V) (t p : Nat) (v : V) : World K V :=
  ⟨heapSet w.heap t (setValAt p v (cellAt w t)), w.next, w.insts⟩

/-- clear() on instance i: release the pointers. -/
def wClear (w : World K V) (i : Nat) : World K V :=
  ⟨w.heap, w.next, setInst w.insts i ⟨none, true⟩⟩

/-- What instance i observes: the storage its pointers reach, or a fully
detached stack when they are null. -/
def viewOf (w : World K V) (i : Nat) : stack K V :=
  match (instGet w.insts i).sid with
  | none => ⟨none, none, (instGet w.insts i).shareable, 0⟩
  | some a => cellAt w a

/-- Well-formedness of a world: every instance's address is allocated,
every allocated address is below the allocation counter, and every cell
is a consistent both-pointer storage satisfying the container
invariant. -/
def WfW (w : World K V) : Prop :=
  (∀ i, i < w.insts.length → ∀ a, (instGet w.insts i).sid = some a →
      (heapFind w.heap a).isSome = true) ∧
  (∀ e ∈ w.heap, e.1 < w.next) ∧
  (∀ e ∈ w.heap, e.2.main_stack.isSome = true ∧ e.2.stacks_map.isSome = true ∧
      Inv e.2)

/-- The state-changing public operations, as applied to one instance of a
world. -/
inductive WOp (K V : Type) where
  | push (k : K) (v : V)
  | pop
  | popKey (k : K)
  | frontMut
  | frontKeyMut (k : K)
  | clear

def applyW (o : WOp K V) (i : Nat) (w : World K V) : World K V :=
  match o with
  | .push k v => wPush w i k v
  | .pop =>
    match wPop w i with
    | .ok w2 => w2
    | .error _ => w
  | .popKey k =>
    match wPopKey w i k with
    | .ok w2 => w2
    | .error _ => w
  | .frontMut =>
    match wFrontMut w i with
    | .ok r => r.2.1
    | .error _ => w
  | .frontKeyMut k =>
    match wFrontKeyMut w i k with
    | .ok r => r.2.1
    | .error _ => w
  | .clear => wClear w i

/-! Lemmas about the association-list operations. -/

lemma findSM_eq_none_iff {sm : SM K} {k : K} :
    findSM sm k = none ↔ ∀ e ∈ sm, e.1 ≠ k := by
  induction sm with
  | nil => simp [findSM]
  | cons e rest ih =>
    by_cases h : e.1 = k
    · simp [findSM, h]
    · simp [findSM, h, ih]

lemma findSM_update_self {sm : SM K} {k : K} {st l : List Nat}
    (h : findSM sm k = some st) : findSM (updateSM sm k l) k = some l := by
  induction sm with
  | nil => simp [findSM] at h
  | cons e rest ih =>
    by_cases he : e.1 = k
    · simp [findSM, updateSM, he]
    · simp [findSM, updateSM, he] at h ⊢
      exact ih h

lemma findSM_update_ne {sm : SM K} {k k2 : K} {l : List Nat}
    (h : k2 ≠ k) : findSM (updateSM sm k l) k2 = findSM sm k2 := by
  induction sm with
  | nil => simp [updateSM]
  | cons e rest ih =>
    by_cases he : e.1 = k
    · subst he
      simp [findSM, updateSM, Ne.symm h]
    · by_cases he2 : e.1 = k2
      · rw [updateSM, if_neg he, findSM, if_pos he2, findSM, if_pos he2]
      · rw [updateSM, if_neg he, findSM, if_neg he2, findSM, if_neg he2]
        exact ih

lemma update_update_self {sm : SM K} {k : K} {st l : List Nat}
    (h : findSM sm k = some st) :
    updateSM (updateSM sm k l) k st = sm := by
  induction sm with
  | nil => simp [findSM] at h
  | cons e rest ih =>
    by_cases he : e.1 = k
    · rw [findSM, if_pos he] at h
      rw [updateSM, if_pos he, updateSM, if_pos rfl]
      obtain ⟨k1, l1⟩ := e
      simp only at he
      subst he
      rw [Option.some_inj] at h
      rw [← h]
    · rw [findSM, if_neg he] at h
      rw [updateSM, if_neg he, updateSM, if_neg he, ih h]

lemma findSM_insert_self {sm : SM K} {k : K} {l : List Nat} :
    findSM (insertSorted sm k l) k = some l := by
  induction sm with
  | nil => simp [insertSorted, findSM]
  | cons e rest ih =>
    by_cases he : e.1 < k
    · simp [insertSorted, he, findSM, ne_of_lt he, ih]
    · simp [insertSorted, he, findSM]

lemma findSM_insert_ne {sm : SM K} {k k2 : K} {l : List Nat}
    (h : k2 ≠ k) : findSM (insertSorted sm k l) k2 = findSM sm k2 := by
  induction sm with
  | nil => simp [insertSorted, findSM, Ne.symm h]
  | cons e rest ih =>
    by_cases he : e.1 < k
    · simp [insertSorted, he, findSM, ih]
    · simp [insertSorted, he, findSM, Ne.symm h]

lemma erase_insert_self {sm : SM K} {k : K} {l : List Nat} :
    eraseSM (insertSorted sm k l) k = sm := by
  induction sm with
  | nil => simp [insertSorted, eraseSM]
  | cons e rest ih =>
    by_cases he : e.1 < k
    · simp [insertSorted, he, eraseSM, ne_of_lt he, ih]
    · simp [insertSorted, he, eraseSM]

lemma findSM_erase_self {sm : SM K} {k : K}
    (hp : sm.Pairwise fun a b => a.1 < b.1) :
    findSM (eraseSM sm k) k = none := by
  induction sm with
  | nil => simp [eraseSM, findSM]
  | cons e rest ih =>
    rw [List.pairwise_cons] at hp
    by_cases he : e.1 = k
    · rw [eraseSM, if_pos he, findSM_eq_none_iff]
      intro x hx
      exact Ne.symm (ne_of_lt (he ▸ hp.1 x hx))
    · simp [eraseSM, he, findSM, ih hp.2]

lemma findSM_erase_ne {sm : SM K} {k k2 : K}
    (h : k2 ≠ k) : findSM (eraseSM sm k) k2 = findSM sm k2 := by
  induction sm with
  | nil => simp [eraseSM]
  | cons e rest ih =>
    by_cases he : e.1 = k
    · rw [eraseSM, if_pos he, findSM, if_neg (by rw [he]; exact Ne.symm h)]
    · by_cases he2 : e.1 = k2
      · rw [eraseSM, if_neg he, findSM, if_pos he2, findSM, if_pos he2]
      · rw [eraseSM, if_neg he, findSM, if_neg he2, findSM, if_neg he2]
        exact ih

lemma mem_update {sm : SM K} {k : K} {l : List Nat} {x : K × List Nat}
    (hx : x ∈ updateSM sm k l) : x ∈ sm ∨ (x = (k, l) ∧ ∃ y ∈ sm, y.1 = k) := by
  induction sm with
  | nil => simp [updateSM] at hx
  | cons e rest ih =>
    by_cases he : e.1 = k
    · rw [updateSM, if_pos he] at hx
      rcases List.mem_cons.mp hx with h1 | h1
      · exact Or.inr ⟨h1, e, List.mem_cons_self e rest, he⟩
      · exact Or.inl (List.mem_cons_of_mem _ h1)
    · rw [updateSM, if_neg he] at hx
      rcases List.mem_cons.mp hx with h1 | h1
      · exact Or.inl (h1 ▸ List.mem_cons_self e rest)
      · rcases ih h1 with h2 | ⟨h2, y, hy, hy1⟩
        · exact Or.inl (List.mem_cons_of_mem _ h2)
        · exact Or.inr ⟨h2, y, List.mem_cons_of_mem _ hy, hy1⟩

lemma pairwise_update {sm : SM K} {k : K} {l : List Nat}
    (hp : sm.Pairwise fun a b => a.1 < b.1) :
    (updateSM sm k l).Pairwise fun a b => a.1 < b.1 := by
  induction sm with
  | nil => simp [updateSM]
  | cons e rest ih =>
    rw [List.pairwise_cons] at hp
    by_cases he : e.1 = k
    · rw [updateSM, if_pos he, List.pairwise_cons]
      exact ⟨fun b hb => he ▸ hp.1 b hb, hp.2⟩
    · rw [updateSM, if_neg he, List.pairwise_cons]
      refine ⟨fun b hb => ?_, ih hp.2⟩
      rcases mem_update hb with h1 | ⟨h1, y, hy, hy1⟩
      · exact hp.1 b h1
      · subst h1
        have h3 := hp.1 y hy
        rw [hy1] at h3
        exact h3

lemma mem_insert {sm : SM K} {k : K} {l : List Nat} {x : K × List Nat}
    (hx : x ∈ insertSorted sm k l) : x ∈ sm ∨ x = (k, l) := by
  induction sm with
  | nil => simpa [insertSorted] using hx
  | cons e rest ih =>
    by_cases he : e.1 < k
    · rw [insertSorted, if_pos he] at hx
      rcases List.mem_cons.mp hx with h1 | h1
      · exact Or.inl (h1 ▸ List.mem_cons_self e rest)
      · rcases ih h1 with h2 | h2
        · exact Or.inl (List.mem_cons_of_mem _ h2)
        · exact Or.inr h2
    · rw [insertSorted, if_neg he] at hx
      rcases List.mem_cons.mp hx with h1 | h1
      · exact Or.inr h1
      · exact Or.inl h1

lemma pairwise_insert {sm : SM K} {k : K} {l : List Nat}
    (hp : sm.Pairwise fun a b => a.1 < b.1)
    (hn : findSM sm k = none) :
    (insertSorted sm k l).Pairwise fun a b => a.1 < b.1 := by
  induction sm with
  | nil => simp [insertSorted]
  | cons e rest ih =>
    rw [List.pairwise_cons] at hp
    have hall := findSM_eq_none_iff.mp hn
    have hne : e.1 ≠ k := hall e (List.mem_cons_self e rest)
    have hn2 : findSM rest k = none :=
      findSM_eq_none_iff.mpr fun x hx => hall x (List.mem_cons_of_mem _ hx)
    by_cases he : e.1 < k
    · rw [insertSorted, if_pos he, List.pairwise_cons]
      refine ⟨fun b hb => ?_, ih hp.2 hn2⟩
      rcases mem_insert hb with h1 | h1
      · exact hp.1 b h1
      · subst h1
        exact he
    · have hk : k < e.1 := lt_of_le_of_ne (not_lt.mp he) (Ne.symm hne)
      rw [insertSorted, if_neg he, List.pairwise_cons]
      constructor
      · intro b hb
        rcases List.mem_cons.mp hb with h1 | h1
        · subst h1
          exact hk
        · exact lt_trans hk (hp.1 b h1)
      · rw [List.pairwise_cons]
        exact hp

lemma mem_erase {sm : SM K} {k : K} {x : K × List Nat}
    (hx : x ∈ eraseSM sm k) : x ∈ sm := by
  induction sm with
  | nil => simpa [eraseSM] using hx
  | cons e rest ih =>
    by_cases he : e.1 = k
    · rw [eraseSM, if_pos he] at hx
      exact List.mem_cons_of_mem _ hx
    · rw [eraseSM, if_neg he] at hx
      rcases List.mem_cons.mp hx with h1 | h1
      · exact h1 ▸ List.mem_cons_self e rest
      · exact List.mem_cons_of_mem _ (ih h1)

lemma pairwise_erase {sm : SM K} {k : K}
    (hp : sm.Pairwise fun a b => a.1 < b.1) :
    (eraseSM sm k).Pairwise fun a b => a.1 < b.1 := by
  induction sm with
  | nil => simp [eraseSM]
  | cons e rest ih =>
    rw [List.pairwise_cons] at hp
    by_cases he : e.1 = k
    · rw [eraseSM, if_pos he]
      exact hp.2
    · rw [eraseSM, if_neg he, List.pairwise_cons]
      exact ⟨fun b hb => hp.1 b (mem_erase hb), ih hp.2⟩

lemma mem_keyIds {ms : List (Entry K V)} {k : K} {q : Nat}
    (h : q ∈ keyIds ms k) : ∃ e ∈ ms, e.1 = q ∧ e.2.1 = k := by
  induction ms with
  | nil => simp [keyIds] at h
  | cons e rest ih =>
    by_cases he : e.2.1 = k
    · rw [keyIds, if_pos he] at h
      rcases List.mem_cons.mp h with h1 | h1
      · exact ⟨e, List.mem_cons_self e rest, h1.symm, he⟩
      · obtain ⟨x, hx, h2⟩ := ih h1
        exact ⟨x, List.mem_cons_of_mem _ hx, h2⟩
    · rw [keyIds, if_neg he] at h
      obtain ⟨x, hx, h2⟩ := ih h
      exact ⟨x, List.mem_cons_of_mem _ hx, h2⟩

lemma mem_eraseId {ms : List (Entry K V)} {p : Nat} {x : Entry K V}
    (hx : x ∈ eraseId ms p) : x ∈ ms := by
  induction ms with
  | nil => simpa [eraseId] using hx
  | cons e rest ih =>
    by_cases he : e.1 = p
    · rw [eraseId, if_pos he] at hx
      exact List.mem_cons_of_mem _ hx
    · rw [eraseId, if_neg he] at hx
      rcases List.mem_cons.mp hx with h1 | h1
      · exact h1 ▸ List.mem_cons_self e rest
      · exact List.mem_cons_of_mem _ (ih h1)

lemma pairwise_eraseId {ms : List (Entry K V)} {p : Nat}
    (hp : ms.Pairwise fun a b => b.1 < a.1) :
    (eraseId ms p).Pairwise fun a b => b.1 < a.1 := by
  induction ms with
  | nil => simp [eraseId]
  | cons e rest ih =>
    rw [List.pairwise_cons] at hp
    by_cases he : e.1 = p
    · rw [eraseId, if_pos he]
      exact hp.2
    · rw [eraseId, if_neg he, List.pairwise_cons]
      exact ⟨fun b hb => hp.1 b (mem_eraseId hb), ih hp.2⟩

lemma eraseId_of_keyIds {ms : List (Entry K V)} {k : K} {p : Nat} {st : List Nat}
    (hp : ms.Pairwise fun a b => b.1 < a.1)
    (h : keyIds ms k = p :: st) :
    keyIds (eraseId ms p) k = st ∧
    (∀ k2, k2 ≠ k → keyIds (eraseId ms p) k2 = keyIds ms k2) ∧
    (∀ k2, k2 ≠ k → keyVals (eraseId ms p) k2 = keyVals ms k2) ∧
    (∃ w, lookupId ms p = some w ∧ keyVals ms k = w :: keyVals (eraseId ms p) k) := by
  induction ms with
  | nil => simp [keyIds] at h
  | cons e rest ih =>
    rw [List.pairwise_cons] at hp
    by_cases he : e.2.1 = k
    · rw [keyIds, if_pos he] at h
      injection h with h1 h2
      rw [eraseId, if_pos h1]
      refine ⟨h2, ?_, ?_, e.2.2, ?_, ?_⟩
      · intro k2 hk2
        rw [keyIds, if_neg (fun hh : e.2.1 = k2 => hk2 (hh ▸ he))]
      · intro k2 hk2
        rw [keyVals, if_neg (fun hh : e.2.1 = k2 => hk2 (hh ▸ he))]
      · rw [lookupId, if_pos h1]
      · rw [keyVals, if_pos he]
    · rw [keyIds, if_neg he] at h
      have hpe : e.1 ≠ p := by
        intro hep
        have hmem : p ∈ keyIds rest k := by
          rw [h]
          exact List.mem_cons_self p st
        obtain ⟨x, hx, hx1, _⟩ := mem_keyIds hmem
        have h3 := hp.1 x hx
        omega
      obtain ⟨ih1, ih2, ih3, w, ihw1, ihw2⟩ := ih hp.2 h
      rw [eraseId, if_neg hpe]
      refine ⟨?_, ?_, ?_, w, ?_, ?_⟩
      · rw [keyIds, if_neg he]
        exact ih1
      · intro k2 hk2
        by_cases he2 : e.2.1 = k2
        · rw [keyIds, if_pos he2, keyIds, if_pos he2, ih2 k2 hk2]
        · rw [keyIds, if_neg he2, keyIds, if_neg he2]
          exact ih2 k2 hk2
      · intro k2 hk2
        by_cases he2 : e.2.1 = k2
        · rw [keyVals, if_pos he2, keyVals, if_pos he2, ih3 k2 hk2]
        · rw [keyVals, if_neg he2, keyVals, if_neg he2]
          exact ih3 k2 hk2
      · rw [lookupId, if_neg hpe]
        exact ihw1
      · rw [keyVals, if_neg he, keyVals, if_neg he]
        exact ihw2

lemma keyVals_eq_nil_iff {ms : List (Entry K V)} {k : K} :
    keyVals ms k = [] ↔ keyIds ms k = [] := by
  induction ms with
  | nil => simp [keyVals, keyIds]
  | cons e rest ih =>
    by_cases he : e.2.1 = k
    · simp [keyVals, keyIds, he]
    · rw [keyVals, if_neg he, keyIds, if_neg he]
      exact ih

lemma keyIdsOpt_eq_none_iff {ms : List (Entry K V)} {k : K} :
    keyIdsOpt ms k = none ↔ keyIds ms k = [] := by
  rw [keyIdsOpt]
  cases h : keyIds ms k with
  | nil => simp
  | cons a l => simp

lemma keyIdsOpt_eq_some_iff {ms : List (Entry K V)} {k : K} {l : List Nat} :
    keyIdsOpt ms k = some l ↔ (keyIds ms k = l ∧ l ≠ []) := by
  rw [keyIdsOpt]
  cases h : keyIds ms k with
  | nil =>
    show (none : Option (List Nat)) = some l ↔ ([] = l ∧ l ≠ [])
    constructor
    · intro hh
      exact Option.noConfusion hh
    · intro hh
      exact absurd hh.1.symm hh.2
  | cons a t =>
    show some (a :: t) = some l ↔ (a :: t = l ∧ l ≠ [])
    constructor
    · intro hh
      rw [Option.some_inj] at hh
      exact ⟨hh, hh ▸ List.cons_ne_nil a t⟩
    · intro hh
      rw [hh.1]

lemma invD_nil {c : Nat} : InvD c ([] : List (Entry K V)) ([] : SM K) := by
  refine ⟨List.Pairwise.nil, ?_, List.Pairwise.nil, ?_⟩
  · intro k
    rw [findSM, keyIdsOpt, keyIds]
  · intro e he
    exact absurd he (List.not_mem_nil e)

lemma keyIds_cons_self {ms : List (Entry K V)} {c : Nat} {k : K} {v : V} :
    keyIds (((c, k, v) : Entry K V) :: ms) k = c :: keyIds ms k := by
  rw [keyIds, if_pos rfl]

lemma keyIds_cons_ne {ms : List (Entry K V)} {c : Nat} {k k2 : K} {v : V}
    (h : k2 ≠ k) :
    keyIds (((c, k, v) : Entry K V) :: ms) k2 = keyIds ms k2 := by
  rw [keyIds, if_neg (fun hh : k = k2 => h hh.symm)]

lemma invD_push {c : Nat} {ms : List (Entry K V)} {sm : SM K} {k : K} {v : V}
    (h : InvD c ms sm) :
    InvD (c + 1) (((c, k, v) : Entry K V) :: ms) (pushSM sm k c) := by
  obtain ⟨hsm, hfind, hms, hbound⟩ := h
  have hfk := hfind k
  refine ⟨?_, ?_, ?_, ?_⟩
  · cases hcase : findSM sm k with
    | some st =>
      simp only [pushSM, hcase]
      exact pairwise_update hsm
    | none =>
      simp only [pushSM, hcase]
      exact pairwise_insert hsm hcase
  · intro k2
    by_cases hk2 : k2 = k
    · subst hk2
      have hnew : keyIds (((c, k2, v) : Entry K V) :: ms) k2 = c :: keyIds ms k2 :=
        keyIds_cons_self
      cases hcase : findSM sm k2 with
      | some st =>
        have hst := keyIdsOpt_eq_some_iff.mp (hcase ▸ hfk).symm
        simp only [pushSM, hcase]
        rw [findSM_update_self hcase, keyIdsOpt_eq_some_iff.mpr]
        exact ⟨by rw [hnew, hst.1], by simp [hnew]⟩
      | none =>
        have hnil : keyIds ms k2 = [] := keyIdsOpt_eq_none_iff.mp (hcase ▸ hfk).symm
        simp only [pushSM, hcase]
        rw [findSM_insert_self, keyIdsOpt_eq_some_iff.mpr]
        exact ⟨by rw [hnew, hnil], by simp [hnew, hnil]⟩
    · have hold : keyIds (((c, k, v) : Entry K V) :: ms) k2 = keyIds ms k2 :=
        keyIds_cons_ne hk2
      have hopt : keyIdsOpt (((c, k, v) : Entry K V) :: ms) k2 = keyIdsOpt ms k2 := by
        rw [keyIdsOpt, keyIdsOpt, hold]
      rw [hopt, ← hfind k2]
      cases hcase : findSM sm k with
      | some st =>
        simp only [pushSM, hcase]
        exact findSM_update_ne hk2
      | none =>
        simp only [pushSM, hcase]
        exact findSM_insert_ne hk2
  · rw [List.pairwise_cons]
    exact ⟨fun b hb => hbound b hb, hms⟩
  · intro e he
    rcases List.mem_cons.mp he with h1 | h1
    · rw [h1]
      exact Nat.lt_succ_self c
    · exact Nat.lt_succ_of_lt (hbound e h1)

lemma invD_find_top {c p : Nat} {k : K} {v : V} {rest : List (Entry K V)}
    {sm : SM K} (h : InvD c (((p, k, v) : Entry K V) :: rest) sm) :
    findSM sm k = some (p :: keyIds rest k) := by
  have hfk := h.2.1 k
  rw [hfk, keyIdsOpt_eq_some_iff.mpr]
  exact ⟨keyIds_cons_self, by simp [keyIds_cons_self]⟩

lemma invD_pop {c p : Nat} {k : K} {v : V} {rest : List (Entry K V)}
    {sm : SM K} (h : InvD c (((p, k, v) : Entry K V) :: rest) sm) :
    InvD c rest (dropTopSM sm k (keyIds rest k)) := by
  obtain ⟨hsm, hfind, hms, hbound⟩ := h
  have htop : findSM sm k = some (p :: keyIds rest k) :=
    invD_find_top ⟨hsm, hfind, hms, hbound⟩
  rw [List.pairwise_cons] at hms
  refine ⟨?_, ?_, hms.2, ?_⟩
  · cases hcase : keyIds rest k with
    | nil =>
      simp only [dropTopSM, hcase]
      exact pairwise_erase hsm
    | cons a t =>
      simp only [dropTopSM, hcase]
      exact pairwise_update hsm
  · intro k2
    by_cases hk2 : k2 = k
    · subst hk2
      cases hcase : keyIds rest k2 with
      | nil =>
        simp only [dropTopSM, hcase]
        rw [findSM_erase_self hsm, Eq.comm, keyIdsOpt_eq_none_iff]
        exact hcase
      | cons a t =>
        simp only [dropTopSM, hcase]
        rw [findSM_update_self htop, keyIdsOpt_eq_some_iff.mpr]
        exact ⟨hcase, by simp [hcase]⟩
    · have hopt : keyIdsOpt rest k2 =
          keyIdsOpt (((p, k, v) : Entry K V) :: rest) k2 := by
        rw [keyIdsOpt, keyIdsOpt, keyIds_cons_ne hk2]
      rw [hopt, ← hfind k2]
      cases hcase : keyIds rest k with
      | nil =>
        simp only [dropTopSM, hcase]
        exact findSM_erase_ne hk2
      | cons a t =>
        simp only [dropTopSM, hcase]
        exact findSM_update_ne hk2
  · intro e he
    exact hbound e (List.mem_cons_of_mem _ he)

lemma invD_popKey {c p : Nat} {k : K} {ms : List (Entry K V)} {sm : SM K}
    {st : List Nat} (h : InvD c ms sm)
    (hfind : findSM sm k = some (p :: st)) :
    InvD c (eraseId ms p) (dropTopSM sm k st) := by
  obtain ⟨hsm, hfindall, hms, hbound⟩ := h
  have hids : keyIds ms k = p :: st :=
    (keyIdsOpt_eq_some_iff.mp ((hfindall k) ▸ hfind).symm.symm).1
  obtain ⟨he1, he2, _, _⟩ := eraseId_of_keyIds hms hids
  refine ⟨?_, ?_, pairwise_eraseId hms, ?_⟩
  · cases hcase : st with
    | nil =>
      simp only [dropTopSM]
      exact pairwise_erase hsm
    | cons a t =>
      simp only [hcase, dropTopSM]
      exact pairwise_update hsm
  · intro k2
    by_cases hk2 : k2 = k
    · subst hk2
      cases hcase : st with
      | nil =>
        simp only [dropTopSM]
        rw [findSM_erase_self hsm, Eq.comm, keyIdsOpt_eq_none_iff, he1, hcase]
      | cons a t =>
        simp only [hcase, dropTopSM]
        rw [findSM_update_self hfind, keyIdsOpt_eq_some_iff.mpr]
        refine ⟨?_, List.cons_ne_nil a t⟩
        rw [he1]
        exact hcase
    · have hopt : keyIdsOpt (eraseId ms p) k2 = keyIdsOpt ms k2 := by
        rw [keyIdsOpt, keyIdsOpt, he2 k2 hk2]
      rw [hopt, ← hfindall k2]
      cases hcase : st with
      | nil =>
        simp only [dropTopSM]
        exact findSM_erase_ne hk2
      | cons a t =>
        simp only [hcase, dropTopSM]
        exact findSM_update_ne hk2
  · intro e he
    exact hbound e (mem_eraseId he)

lemma inv_empty : Inv (emptyStack : stack K V) := invD_nil

lemma inv_push {s : stack K V} {k : K} {v : V} (h : Inv s) : Inv (push k v s) := by
  obtain ⟨mso, smo, sh, c⟩ := s
  cases mso with
  | none =>
    cases smo with
    | none => exact invD_push invD_nil
    | some sm => exact h.elim
  | some ms =>
    cases smo with
    | none => exact h.elim
    | some sm => exact invD_push h

lemma inv_pop {s s2 : stack K V} (h : Inv s) (hok : pop s = .ok s2) : Inv s2 := by
  obtain ⟨mso, smo, sh, c⟩ := s
  cases mso with
  | none => simp [pop] at hok
  | some ms =>
    cases ms with
    | nil => simp [pop] at hok
    | cons e rest =>
      cases smo with
      | none => exact h.elim
      | some sm =>
        obtain ⟨p, k, v⟩ := e
        have htop := invD_find_top (h : InvD c (((p, k, v) : Entry K V) :: rest) sm)
        simp only [pop, htop] at hok
        simp only [Except.ok.injEq] at hok
        subst hok
        exact invD_pop h

lemma inv_popKey {s s2 : stack K V} {k : K} (h : Inv s)
    (hok : popKey k s = .ok s2) : Inv s2 := by
  obtain ⟨mso, smo, sh, c⟩ := s
  cases mso with
  | none =>
    cases smo with
    | none => simp [popKey, findSM] at hok
    | some sm => exact h.elim
  | some ms =>
    cases smo with
    | none => exact h.elim
    | some sm =>
      cases hcase : findSM sm k with
      | none => simp [popKey, hcase] at hok
      | some st =>
        cases st with
        | nil => simp [popKey, hcase] at hok
        | cons p st2 =>
          simp only [popKey, hcase, Except.ok.injEq] at hok
          subst hok
          exact invD_popKey h hcase

lemma inv_frontMut {s : stack K V} {r : (K × V) × stack K V} (h : Inv s)
    (hok : frontMut s = .ok r) : Inv r.2 := by
  obtain ⟨mso, smo, sh, c⟩ := s
  cases mso with
  | none => simp [frontMut] at hok
  | some ms =>
    cases ms with
    | nil => simp [frontMut] at hok
    | cons e rest =>
      simp only [frontMut, Except.ok.injEq] at hok
      subst hok
      exact h

lemma inv_frontKeyMut {s : stack K V} {k : K} {r : V × stack K V} (h : Inv s)
    (hok : frontKeyMut k s = .ok r) : Inv r.2 := by
  obtain ⟨mso, smo, sh, c⟩ := s
  cases mso with
  | none =>
    cases smo with
    | none => simp [frontKeyMut, findSM] at hok
    | some sm => exact h.elim
  | some ms =>
    cases smo with
    | none => exact h.elim
    | some sm =>
      cases hcase : findSM sm k with
      | none => simp [frontKeyMut, hcase] at hok
      | some st =>
        cases st with
        | nil => simp [frontKeyMut, hcase] at hok
        | cons p st2 =>
          cases hlook : lookupId ms p with
          | none => simp [frontKeyMut, hcase, hlook] at hok
          | some v =>
            simp only [frontKeyMut, Option.getD, hcase, hlook, Except.ok.injEq] at hok
            subst hok
            exact h

lemma inv_clear {s : stack K V} : Inv (clear s) := trivial

lemma inv_applyOp {s : stack K V} {o : Op K V} (h : Inv s) : Inv (applyOp o s) := by
  cases o with
  | push k v => exact inv_push h
  | pop =>
    simp only [applyOp]
    cases hcase : pop s with
    | ok s2 => exact inv_pop h hcase
    | error e => exact h
  | popKey k =>
    simp only [applyOp]
    cases hcase : popKey k s with
    | ok s2 => exact inv_popKey h hcase
    | error e => exact h
  | frontMut =>
    simp only [applyOp]
    cases hcase : frontMut s with
    | ok r => exact inv_frontMut h hcase
    | error e => exact h
  | frontKeyMut k =>
    simp only [applyOp]
    cases hcase : frontKeyMut k s with
    | ok r => exact inv_frontKeyMut h hcase
    | error e => exact h
  | clear => exact @inv_clear K V _ s

lemma inv_foldl (ops : List (Op K V)) :
    ∀ s : stack K V, Inv s → Inv (List.foldl (fun s o => applyOp o s) s ops) := by
  induction ops with
  | nil =>
    intro s hs
    exact hs
  | cons o rest ih =>
    intro s hs
    exact ih _ (inv_applyOp hs)

lemma inv_run (ops : List (Op K V)) : Inv (run ops) :=
  inv_foldl ops emptyStack inv_empty

lemma pop_ok_shape {s s2 : stack K V} (hok : pop s = .ok s2) :
    ∃ e rest, s.main_stack = some (e :: rest) ∧ s2.main_stack = some rest ∧
      s2.stacks_map.isSome = true ∧ s2.shareable = true ∧
      s2.counter = s.counter := by
  obtain ⟨mso, smo, sh, c⟩ := s
  cases mso with
  | none => simp [pop] at hok
  | some ms =>
    cases ms with
    | nil => simp [pop] at hok
    | cons e rest =>
      cases smo with
      | none => simp [pop] at hok
      | some sm =>
        cases hcase : findSM sm e.2.1 with
        | none => simp [pop, hcase] at hok
        | some st =>
          cases st with
          | nil => simp [pop, hcase] at hok
          | cons q st2 =>
            simp only [pop, hcase, Except.ok.injEq] at hok
            subst hok
            exact ⟨e, rest, rfl, rfl, rfl, rfl, rfl⟩

lemma size_push {s : stack K V} {k : K} {v : V} :
    size (push k v s) = size s + 1 := by
  obtain ⟨mso, smo, sh, c⟩ := s
  cases mso with
  | none => rfl
  | some ms => rfl

/-- Claim C1 (counterexample): the spec's concrete scenario ends with
"pop() yields size()=1, count(x)=0, and key iteration yields only y";
but pop() removes the front entry (y, 2), so the surviving entry is
(x, 1): count(x) is 1 and iteration yields only x.  The scenario as
written is false of the code. -/
theorem c1_counterexample :
    ¬ (size c1s3 = 3 ∧ frontRO c1s3 = .ok ('x', 3) ∧
       count 'x' c1s3 = some 2 ∧
       ∃ s4, popKey 'x' c1s3 = .ok s4 ∧ frontRO s4 = .ok ('y', 2) ∧
         count 'x' s4 = some 1 ∧
         ∃ s5, pop s4 = .ok s5 ∧ size s5 = 1 ∧ count 'x' s5 = some 0 ∧
           keys s5 = ['y']) := by
  rintro ⟨-, -, -, s4, h4, -, -, s5, h5, -, hc, -⟩
  have e4 : popKey 'x' c1s3 = Except.ok
      (⟨some [(1, 'y', 2), (0, 'x', 1)], some [('x', [0]), ('y', [1])],
        true, 3⟩ : stack Char Nat) := rfl
  rw [e4] at h4
  injection h4 with h4e
  subst h4e
  have e5 : pop (⟨some [(1, 'y', 2), (0, 'x', 1)],
      some [('x', [0]), ('y', [1])], true, 3⟩ : stack Char Nat) =
      Except.ok (⟨some [(0, 'x', 1)], some [('x', [0])], true, 3⟩ :
        stack Char Nat) := rfl
  rw [e5] at h5
  injection h5 with h5e
  subst h5e
  exact absurd hc (by decide)

/-- Claim C1 (amended): the scenario as the code actually runs it: after
push(x,1); push(y,2); push(x,3): size 3, front (x,3), count(x)=2; after
pop(x): front (y,2), count(x)=1; after pop(): size 1, count(x)=1, and
key iteration yields only the key x. -/
theorem c1_amended_scenario :
    size c1s3 = 3 ∧ frontRO c1s3 = .ok ('x', 3) ∧ count 'x' c1s3 = some 2 ∧
    ∃ s4, popKey 'x' c1s3 = .ok s4 ∧ frontRO s4 = .ok ('y', 2) ∧
      count 'x' s4 = some 1 ∧
      ∃ s5, pop s4 = .ok s5 ∧ size s5 = 1 ∧ count 'x' s5 = some 1 ∧
        keys s5 = ['x'] := by
  refine ⟨rfl, rfl, rfl,
    ⟨some [(1, 'y', 2), (0, 'x', 1)], some [('x', [0]), ('y', [1])], true, 3⟩,
    rfl, rfl, rfl,
    ⟨some [(0, 'x', 1)], some [('x', [0])], true, 3⟩, rfl, rfl, rfl, rfl⟩

/-- Claim C2 (code bug witness): on a cleared stack whose push fails at
the second allocation inside about_to_modify (stack.h lines 49-52), the
container is left with an allocated empty main_stack and a null
stacks_map; count, which dereferences stacks_map after seeing a non-null
main_stack (stack.h lines 303-311), runs into undefined behaviour
instead of returning its pre-call value 0.  The strong guarantee claimed
for every mutating operation is violated here. -/
theorem c2_alloc_failure_in_guard_breaks_observables :
    (clear (emptyStack : stack Char Nat)).main_stack = none ∧
    count 'x' (clear (emptyStack : stack Char Nat)) = some 0 ∧
    count 'x' (pushAllocFailStacksMap (clear (emptyStack : stack Char Nat))) =
      none :=
  ⟨rfl, rfl, rfl⟩

/-- Claim C9: pushing (k, v) and then immediately calling pop() returns
the container to an observationally identical state: same size, same
front, same per-key counts, same key iteration. -/
theorem c9_push_pop_roundtrip (s : stack K V) (k : K) (v : V) (h : Inv s) :
    ∃ s2, pop (push k v s) = .ok s2 ∧ size s2 = size s ∧
      frontRO s2 = frontRO s ∧ (∀ k2, count k2 s2 = count k2 s) ∧
      keys s2 = keys s := by
  obtain ⟨mso, smo, sh, c⟩ := s
  cases mso with
  | none =>
    cases smo with
    | some _ => exact h.elim
    | none =>
      refine ⟨⟨some [], some [], true, c + 1⟩, ?_, rfl, rfl, fun k2 => rfl, rfl⟩
      have h0 : findSM ([] : SM K) k = none := rfl
      simp only [push, Option.getD, pushSM, h0]
      have hfind2 : findSM (insertSorted ([] : SM K) k [c]) k = some [c] :=
        findSM_insert_self
      simp only [pop, hfind2, dropTopSM]
      rw [erase_insert_self]
  | some ms =>
    cases smo with
    | none => exact h.elim
    | some sm =>
      refine ⟨⟨some ms, some sm, true, c + 1⟩, ?_, rfl, rfl, fun k2 => rfl, rfl⟩
      cases hcase : findSM sm k with
      | some st =>
        have hne : st ≠ [] :=
          (keyIdsOpt_eq_some_iff.mp ((h.2.1 k) ▸ hcase).symm.symm).2
        simp only [push, Option.getD, pushSM, hcase]
        have hfind2 : findSM (updateSM sm k (c :: st)) k = some (c :: st) :=
          findSM_update_self hcase
        simp only [pop, hfind2]
        cases st with
        | nil => exact absurd rfl hne
        | cons a t =>
          simp only [dropTopSM]
          rw [update_update_self hcase]
      | none =>
        simp only [push, Option.getD, pushSM, hcase]
        have hfind2 : findSM (insertSorted sm k [c]) k = some [c] :=
          findSM_insert_self
        simp only [pop, hfind2, dropTopSM]
        rw [erase_insert_self]

/-- Claim C9 witness, at the empty stack with key x and value 1. -/
theorem c9_witness :
    ∃ s2, pop (push 'x' 1 (emptyStack : stack Char Nat)) = .ok s2 ∧
      size s2 = size (emptyStack : stack Char Nat) ∧
      frontRO s2 = frontRO (emptyStack : stack Char Nat) ∧
      (∀ k2, count k2 s2 = count k2 (emptyStack : stack Char Nat)) ∧
      keys s2 = keys (emptyStack : stack Char Nat) :=
  c9_push_pop_roundtrip emptyStack 'x' 1 inv_empty

lemma inv_runFromPP (ops : List (Option (K × V))) :
    ∀ s : stack K V, Inv s → Inv (runFromPP s ops) := by
  induction ops with
  | nil =>
    intro s hs
    exact hs
  | cons o rest ih =>
    intro s hs
    cases o with
    | some kv => exact ih _ (inv_push hs)
    | none =>
      simp only [runFromPP]
      cases hcase : pop s with
      | ok s2 => exact ih _ (inv_pop hs hcase)
      | error e => exact ih _ hs

lemma size_runFromPP (ops : List (Option (K × V))) :
    ∀ s : stack K V, ValidFromPP s ops →
      size (runFromPP s ops) + nPop ops = size s + nPush ops := by
  induction ops with
  | nil =>
    intro s _
    rfl
  | cons o rest ih =>
    intro s hv
    cases o with
    | some kv =>
      have h1 := ih (push kv.1 kv.2 s) hv
      have hsz : size (push kv.1 kv.2 s) = size s + 1 := size_push
      simp only [runFromPP, nPop, nPush]
      omega
    | none =>
      obtain ⟨s2, hok, hv2⟩ := hv
      have h1 := ih s2 hv2
      simp only [runFromPP, hok, nPop, nPush]
      obtain ⟨e, r0, hm1, hm2, -, -, -⟩ := pop_ok_shape hok
      have hs1 : size s = r0.length + 1 := by simp [size, hm1]
      have hs2 : size s2 = r0.length := by simp [size, hm2]
      omega

lemma inv_ms_pairwise {s : stack K V} {ms : List (Entry K V)} (h : Inv s)
    (hm : s.main_stack = some ms) : ms.Pairwise fun a b => b.1 < a.1 := by
  obtain ⟨mso, smo, sh, c⟩ := s
  cases mso with
  | none => simp at hm
  | some ms2 =>
    cases smo with
    | none => exact h.elim
    | some sm =>
      injection hm with hm2
      subst hm2
      exact h.2.2.1

/-- Claim C3: over any sequence of pushes and successful pops from a
fresh stack, size() is the number of pushes minus the number of pops;
and pop() removes exactly the front entry, which carries the largest
position of all live entries - positions record push order, so this is
the globally most recently pushed entry not yet removed, regardless of
its key. -/
theorem c3_size_and_global_lifo (ops : List (Option (K × V)))
    (hv : ValidFromPP emptyStack ops) :
    size (runFromPP emptyStack ops) = nPush ops - nPop ops ∧
    ∀ s2, pop (runFromPP emptyStack ops) = .ok s2 →
      ∃ e rest, (runFromPP emptyStack ops).main_stack = some (e :: rest) ∧
        s2.main_stack = some rest ∧ ∀ e2 ∈ rest, e2.1 < e.1 := by
  constructor
  · have h1 := size_runFromPP ops emptyStack hv
    have h0 : size (emptyStack : stack K V) = 0 := rfl
    omega
  · intro s2 hok
    obtain ⟨e, rest, h1, h2, -, -, -⟩ := pop_ok_shape hok
    refine ⟨e, rest, h1, h2, ?_⟩
    have hinv := inv_runFromPP ops emptyStack inv_empty
    have hp := inv_ms_pairwise hinv h1
    rw [List.pairwise_cons] at hp
    exact hp.1

/-- Claim C3 witness, at the sequence push(x, 1); pop(). -/
theorem c3_witness :
    size (runFromPP (emptyStack : stack Char Nat) [some ('x', 1), none]) =
      nPush [some (('x', 1) : Char × Nat), none] -
        nPop [some (('x', 1) : Char × Nat), none] ∧
    ∀ s2, pop (runFromPP (emptyStack : stack Char Nat)
        [some ('x', 1), none]) = .ok s2 →
      ∃ e rest, (runFromPP (emptyStack : stack Char Nat)
          [some ('x', 1), none]).main_stack = some (e :: rest) ∧
        s2.main_stack = some rest ∧ ∀ e2 ∈ rest, e2.1 < e.1 :=
  c3_size_and_global_lifo [some ('x', 1), none]
    ⟨⟨some [], some [], true, 1⟩, rfl, trivial⟩

/-- Claim C5: after any sequence of public operations from a fresh
stack, the cross-structure invariant holds: stacks_map is strictly
sorted by key and maps each key to exactly the positions of that key's
live main_stack entries, most recent first (so a key is mapped iff it
has a live entry, its stack size is that key's entry count, and the
positions reachable from stacks_map are exactly the live entries with
multiplicity); positions strictly decrease along main_stack. -/
theorem c5_cross_structure_invariant (ops : List (Op K V)) :
    Inv (run ops) :=
  inv_run ops

/-- Claim C6: for a key k with live entries, front(k) (const and
mutable) observes the value of k's most recently pushed live entry, and
pop(k) removes exactly that entry, leaving the remaining per-key
sequence and every other key's sequence unchanged: per-key LIFO,
independent of other keys. -/
theorem c6_per_key_lifo (s : stack K V) (k : K) (h : Inv s)
    (hne : keyValsS s k ≠ []) :
    ∃ v rest, keyValsS s k = v :: rest ∧
      frontKeyRO k s = .ok v ∧
      frontKeyMut k s = .ok (v, { s with shareable := false }) ∧
      ∃ s2, popKey k s = .ok s2 ∧ keyValsS s2 k = rest ∧
        ∀ k2, k2 ≠ k → keyValsS s2 k2 = keyValsS s k2 := by
  obtain ⟨mso, smo, sh, c⟩ := s
  cases mso with
  | none =>
    cases smo with
    | some _ => exact h.elim
    | none => exact absurd rfl hne
  | some ms =>
    cases smo with
    | none => exact h.elim
    | some sm =>
      have hids : keyIds ms k ≠ [] := fun hnil =>
        hne (keyVals_eq_nil_iff.mpr hnil)
      cases hcase : keyIds ms k with
      | nil => exact absurd hcase hids
      | cons p st =>
        have hfind : findSM sm k = some (p :: st) := by
          rw [h.2.1 k, keyIdsOpt_eq_some_iff.mpr ⟨hcase, List.cons_ne_nil p st⟩]
        obtain ⟨he1, he2, he3, w, hw1, hw2⟩ := eraseId_of_keyIds h.2.2.1 hcase
        refine ⟨w, keyVals (eraseId ms p) k, hw2, ?_, ?_, ?_⟩
        · simp only [frontKeyRO, hfind, hw1]
        · simp only [frontKeyMut, Option.getD, hfind, hw1]
        · refine ⟨⟨some (eraseId ms p), some (dropTopSM sm k st), true, c⟩,
            ?_, rfl, ?_⟩
          · simp only [popKey, Option.getD, hfind]
          · intro k2 hk2
            exact he3 k2 hk2

/-- Claim C6 witness, at the stack built by push(x, 1); push(x, 2). -/
theorem c6_witness :
    ∃ v rest,
      keyValsS (run [Op.push 'x' 1, Op.push 'x' 2]) 'x' = v :: rest ∧
      frontKeyRO 'x' (run [Op.push 'x' 1, Op.push 'x' 2]) = .ok v ∧
      frontKeyMut 'x' (run [Op.push 'x' 1, Op.push 'x' 2]) =
        .ok (v, { run [Op.push 'x' 1, Op.push 'x' 2] with shareable := false }) ∧
      ∃ s2, popKey 'x' (run [Op.push 'x' 1, Op.push 'x' 2]) = .ok s2 ∧
        keyValsS s2 'x' = rest ∧
        ∀ k2, k2 ≠ 'x' →
          keyValsS s2 k2 = keyValsS (run [Op.push 'x' 1, Op.push 'x' 2]) k2 :=
  c6_per_key_lifo (run [Op.push 'x' 1, Op.push 'x' 2]) 'x'
    (inv_run [Op.push 'x' 1, Op.push 'x' 2]) (by decide)

lemma findSM_some_mem {sm : SM K} {k : K} {st : List Nat}
    (h : findSM sm k = some st) : (k, st) ∈ sm := by
  induction sm with
  | nil => simp [findSM] at h
  | cons e rest ih =>
    by_cases he : e.1 = k
    · rw [findSM, if_pos he, Option.some_inj] at h
      have he2 : e = (k, st) := Prod.ext he h
      exact he2 ▸ List.mem_cons_self e rest
    · rw [findSM, if_neg he] at h
      exact List.mem_cons_of_mem _ (ih h)

lemma mem_keys_iff {s : stack K V} (h : Inv s) (k : K) :
    k ∈ keys s ↔ keyValsS s k ≠ [] := by
  obtain ⟨mso, smo, sh, c⟩ := s
  cases mso with
  | none =>
    cases smo with
    | some _ => exact h.elim
    | none => simp [keys, keyValsS, keyVals]
  | some ms =>
    cases smo with
    | none => exact h.elim
    | some sm =>
      have hfk := h.2.1 k
      simp only [keys]
      constructor
      · intro hk
        obtain ⟨e, he, he1⟩ := List.mem_map.mp hk
        have hnone : findSM sm k ≠ none := by
          simp only [ne_eq, findSM_eq_none_iff]
          push_neg
          exact ⟨e, he, he1⟩
        intro hnil
        apply hnone
        rw [hfk, keyIdsOpt_eq_none_iff]
        exact keyVals_eq_nil_iff.mp hnil
      · intro hne
        have hnone : findSM sm k ≠ none := by
          rw [hfk]
          simp only [ne_eq, keyIdsOpt_eq_none_iff]
          intro hnil
          exact hne (keyVals_eq_nil_iff.mpr hnil)
        cases hcase : findSM sm k with
        | none => exact absurd hcase hnone
        | some st =>
          exact List.mem_map.mpr ⟨(k, st), findSM_some_mem hcase, rfl⟩

/-- Claim C7: pop() and front() fail with EmptyContainer exactly when
the container has no entries (null main_stack or size 0); pop(k) and
front(k) fail with KeyNotFound exactly when count(k) is 0; and no
operation fails under any other condition (allocation failure is modelled
separately).  Every failure is the synchronous error value of the
offending call. -/
theorem c7_failure_conditions (s : stack K V) (h : Inv s) :
    (∀ e, pop s = .error e ↔
      (e = Err.emptyContainer ∧ (s.main_stack = none ∨ size s = 0))) ∧
    (∀ e, frontRO s = .error e ↔
      (e = Err.emptyContainer ∧ (s.main_stack = none ∨ size s = 0))) ∧
    (∀ e, frontMut s = .error e ↔
      (e = Err.emptyContainer ∧ (s.main_stack = none ∨ size s = 0))) ∧
    (∀ k e, popKey k s = .error e ↔
      (e = Err.keyNotFound ∧ count k s = some 0)) ∧
    (∀ k e, frontKeyRO k s = .error e ↔
      (e = Err.keyNotFound ∧ count k s = some 0)) ∧
    (∀ k e, frontKeyMut k s = .error e ↔
      (e = Err.keyNotFound ∧ count k s = some 0)) := by
  obtain ⟨mso, smo, sh, c⟩ := s
  cases mso with
  | none =>
    cases smo with
    | some _ => exact h.elim
    | none =>
      refine ⟨fun e => ?_, fun e => ?_, fun e => ?_, fun k e => ?_,
        fun k e => ?_, fun k e => ?_⟩
      · simp [pop, eq_comm]
      · simp [frontRO, eq_comm]
      · simp [frontMut, eq_comm]
      · simp [popKey, findSM, count, eq_comm]
      · simp [frontKeyRO, count, eq_comm]
      · simp [frontKeyMut, findSM, count, eq_comm]
  | some ms =>
    cases smo with
    | none => exact h.elim
    | some sm =>
      refine ⟨fun e => ?_, fun e => ?_, fun e => ?_, fun k e => ?_,
        fun k e => ?_, fun k e => ?_⟩
      · cases ms with
        | nil => simp [pop, size, eq_comm]
        | cons e0 rest =>
          obtain ⟨p, k0, v0⟩ := e0
          have hfind := invD_find_top
            (h : InvD c (((p, k0, v0) : Entry K V) :: rest) sm)
          simp [pop, hfind, size]
      · cases ms with
        | nil => simp [frontRO, size, eq_comm]
        | cons e0 rest => simp [frontRO, size]
      · cases ms with
        | nil => simp [frontMut, size, eq_comm]
        | cons e0 rest => simp [frontMut, size]
      · cases hfind : findSM sm k with
        | none => simp [popKey, hfind, count, eq_comm]
        | some st =>
          have hst := keyIdsOpt_eq_some_iff.mp ((h.2.1 k).symm.trans hfind)
          cases st with
          | nil => exact absurd rfl hst.2
          | cons p st2 => simp [popKey, hfind, count]
      · cases hfind : findSM sm k with
        | none => simp [frontKeyRO, hfind, count, eq_comm]
        | some st =>
          have hst := keyIdsOpt_eq_some_iff.mp ((h.2.1 k).symm.trans hfind)
          cases st with
          | nil => exact absurd rfl hst.2
          | cons p st2 =>
            obtain ⟨-, -, -, w, hw1, -⟩ := eraseId_of_keyIds h.2.2.1 hst.1
            simp [frontKeyRO, hfind, hw1, count]
      · cases hfind : findSM sm k with
        | none => simp [frontKeyMut, hfind, count, eq_comm]
        | some st =>
          have hst := keyIdsOpt_eq_some_iff.mp ((h.2.1 k).symm.trans hfind)
          cases st with
          | nil => exact absurd rfl hst.2
          | cons p st2 =>
            obtain ⟨-, -, -, w, hw1, -⟩ := eraseId_of_keyIds h.2.2.1 hst.1
            simp [frontKeyMut, hfind, hw1, count]

/-- Claim C7 witness, at the stack built by push(x, 1). -/
theorem c7_witness :
    (∀ e, pop (run [Op.push 'x' (1 : Nat)]) = .error e ↔
      (e = Err.emptyContainer ∧
        ((run [Op.push 'x' (1 : Nat)]).main_stack = none ∨
          size (run [Op.push 'x' (1 : Nat)]) = 0))) ∧
    (∀ e, frontRO (run [Op.push 'x' (1 : Nat)]) = .error e ↔
      (e = Err.emptyContainer ∧
        ((run [Op.push 'x' (1 : Nat)]).main_stack = none ∨
          size (run [Op.push 'x' (1 : Nat)]) = 0))) ∧
    (∀ e, frontMut (run [Op.push 'x' (1 : Nat)]) = .error e ↔
      (e = Err.emptyContainer ∧
        ((run [Op.push 'x' (1 : Nat)]).main_stack = none ∨
          size (run [Op.push 'x' (1 : Nat)]) = 0))) ∧
    (∀ k e, popKey k (run [Op.push 'x' (1 : Nat)]) = .error e ↔
      (e = Err.keyNotFound ∧ count k (run [Op.push 'x' (1 : Nat)]) = some 0)) ∧
    (∀ k e, frontKeyRO k (run [Op.push 'x' (1 : Nat)]) = .error e ↔
      (e = Err.keyNotFound ∧ count k (run [Op.push 'x' (1 : Nat)]) = some 0)) ∧
    (∀ k e, frontKeyMut k (run [Op.push 'x' (1 : Nat)]) = .error e ↔
      (e = Err.keyNotFound ∧ count k (run [Op.push 'x' (1 : Nat)]) = some 0)) :=
  c7_failure_conditions (run [Op.push 'x' 1]) (inv_run [Op.push 'x' 1])

/-- Claim C8: key iteration yields each distinct key present exactly
once, in strictly ascending key order, independent of push order; after
pushing keys b, a, b the iteration yields exactly a then b. -/
theorem c8_sorted_distinct_key_iteration :
    (∀ (K2 V2 : Type) [LinearOrder K2] (s : stack K2 V2), Inv s →
      ((keys s).Pairwise fun a b => a < b) ∧
      (∀ k, k ∈ keys s ↔ keyValsS s k ≠ [])) ∧
    keys (run [Op.push 'b' 0, Op.push 'a' 1, Op.push 'b' 2]) = ['a', 'b'] := by
  constructor
  · intro K2 V2 inst2 s h
    constructor
    · obtain ⟨mso, smo, sh, c⟩ := s
      cases mso with
      | none =>
        cases smo with
        | some _ => exact h.elim
        | none => simp [keys]
      | some ms =>
        cases smo with
        | none => exact h.elim
        | some sm =>
          simp only [keys]
          exact List.Pairwise.map Prod.fst (fun a b hab => hab) h.1
    · exact fun k => mem_keys_iff h k
  · rfl

/-- Claim C8 witness, at the stack built by push(b, 0); push(a, 1);
push(b, 2). -/
theorem c8_witness :
    ((keys (run [Op.push 'b' 0, Op.push 'a' 1, Op.push 'b' 2])).Pairwise
      fun a b => a < b) ∧
    (∀ k, k ∈ keys (run [Op.push 'b' 0, Op.push 'a' 1, Op.push 'b' 2]) ↔
      keyValsS (run [Op.push 'b' 0, Op.push 'a' 1, Op.push 'b' 2]) k ≠ []) :=
  c8_sorted_distinct_key_iteration.1 Char Nat
    (run [Op.push 'b' 0, Op.push 'a' 1, Op.push 'b' 2])
    (inv_run [Op.push 'b' 0, Op.push 'a' 1, Op.push 'b' 2])

/-! Lemmas about the heap and instance lists of the sharing model. -/

lemma heapFind_append_ne {h : List (Nat × stack K V)} {n a : Nat}
    {c : stack K V} (hne : a ≠ n) :
    heapFind (h ++ [(n, c)]) a = heapFind h a := by
  induction h with
  | nil => simp [heapFind, Ne.symm hne]
  | cons e rest ih =>
    by_cases he : e.1 = a
    · simp [heapFind, he]
    · simp only [List.cons_append, heapFind, if_neg he]
      exact ih

lemma heapFind_none_of_bound {h : List (Nat × stack K V)} {n : Nat}
    (hb : ∀ e ∈ h, e.1 < n) : heapFind h n = none := by
  induction h with
  | nil => rfl
  | cons e rest ih =>
    have h1 := hb e (List.mem_cons_self e rest)
    rw [heapFind, if_neg (by omega)]
    exact ih fun x hx => hb x (List.mem_cons_of_mem _ hx)

lemma heapFind_append_self {h : List (Nat × stack K V)} {n : Nat}
    {c : stack K V} (hn : heapFind h n = none) :
    heapFind (h ++ [(n, c)]) n = some c := by
  induction h with
  | nil => simp [heapFind]
  | cons e rest ih =>
    by_cases he : e.1 = n
    · rw [heapFind, if_pos he] at hn
      exact Option.noConfusion hn
    · rw [heapFind, if_neg he] at hn
      rw [List.cons_append, heapFind, if_neg he]
      exact ih hn

lemma heapFind_set_ne {h : List (Nat × stack K V)} {a b : Nat}
    {c : stack K V} (hne : b ≠ a) :
    heapFind (heapSet h a c) b = heapFind h b := by
  induction h with
  | nil => rfl
  | cons e rest ih =>
    by_cases he : e.1 = a
    · rw [heapSet, if_pos he, heapFind, if_neg (Ne.symm hne), heapFind,
        if_neg (by rw [he]; exact Ne.symm hne)]
    · by_cases he2 : e.1 = b
      · rw [heapSet, if_neg he, heapFind, if_pos he2, heapFind, if_pos he2]
      · rw [heapSet, if_neg he, heapFind, if_neg he2, heapFind, if_neg he2]
        exact ih

lemma heapFind_set_self {h : List (Nat × stack K V)} {a : Nat}
    {c : stack K V} (hs : (heapFind h a).isSome = true) :
    heapFind (heapSet h a c) a = some c := by
  induction h with
  | nil => simp [heapFind] at hs
  | cons e rest ih =>
    by_cases he : e.1 = a
    · rw [heapSet, if_pos he, heapFind, if_pos rfl]
    · rw [heapFind, if_neg he] at hs
      rw [heapSet, if_neg he, heapFind, if_neg he]
      exact ih hs

lemma heapFind_mem {h : List (Nat × stack K V)} {a : Nat} {c : stack K V}
    (hf : heapFind h a = some c) : (a, c) ∈ h := by
  induction h with
  | nil => simp [heapFind] at hf
  | cons e rest ih =>
    by_cases he : e.1 = a
    · rw [heapFind, if_pos he, Option.some_inj] at hf
      have he2 : e = (a, c) := Prod.ext he hf
      exact he2 ▸ List.mem_cons_self e rest
    · rw [heapFind, if_neg he] at hf
      exact List.mem_cons_of_mem _ (ih hf)

lemma mem_heapSet {h : List (Nat × stack K V)} {a : Nat} {c : stack K V}
    {x : Nat × stack K V} (hx : x ∈ heapSet h a c) :
    x ∈ h ∨ (x = (a, c) ∧ ∃ y ∈ h, y.1 = a) := by
  induction h with
  | nil => simp [heapSet] at hx
  | cons e rest ih =>
    by_cases he : e.1 = a
    · rw [heapSet, if_pos he] at hx
      rcases List.mem_cons.mp hx with h1 | h1
      · exact Or.inr ⟨h1, e, List.mem_cons_self e rest, he⟩
      · exact Or.inl (List.mem_cons_of_mem _ h1)
    · rw [heapSet, if_neg he] at hx
      rcases List.mem_cons.mp hx with h1 | h1
      · exact Or.inl (h1 ▸ List.mem_cons_self e rest)
      · rcases ih h1 with h2 | ⟨h2, y, hy, hy1⟩
        · exact Or.inl (List.mem_cons_of_mem _ h2)
        · exact Or.inr ⟨h2, y, List.mem_cons_of_mem _ hy, hy1⟩

lemma instGet_set_ne {l : List Inst} {i j : Nat} {x : Inst} (hne : j ≠ i) :
    instGet (setInst l i x) j = instGet l j := by
  induction l generalizing i j with
  | nil => rfl
  | cons y rest ih =>
    cases i with
    | zero =>
      cases j with
      | zero => exact absurd rfl hne
      | succ m => rfl
    | succ n =>
      cases j with
      | zero => rfl
      | succ m =>
        rw [setInst, instGet, instGet]
        exact ih fun hh => hne (by rw [hh])

lemma instGet_set_self {l : List Inst} {i : Nat} {x : Inst}
    (hi : i < l.length) : instGet (setInst l i x) i = x := by
  induction l generalizing i with
  | nil => simp at hi
  | cons y rest ih =>
    cases i with
    | zero => rfl
    | succ n =>
      rw [setInst, instGet]
      exact ih (by simpa using hi)

lemma setInst_length {l : List Inst} {i : Nat} {x : Inst} :
    (setInst l i x).length = l.length := by
  induction l generalizing i with
  | nil => rfl
  | cons y rest ih =>
    cases i with
    | zero => rfl
    | succ n =>
      rw [setInst, List.length_cons, List.length_cons, ih]

lemma instGet_append_lt {l l2 : List Inst} {j : Nat} (hj : j < l.length) :
    instGet (l ++ l2) j = instGet l j := by
  induction l generalizing j with
  | nil => simp at hj
  | cons y rest ih =>
    cases j with
    | zero => rfl
    | succ m =>
      rw [List.cons_append, instGet, instGet]
      exact ih (by simpa using hj)

lemma instGet_append_self {l : List Inst} {x : Inst} :
    instGet (l ++ [x]) l.length = x := by
  induction l with
  | nil => rfl
  | cons y rest ih =>
    rw [List.cons_append, List.length_cons, instGet]
    exact ih

lemma one_le_useCount {l : List Inst} {j a : Nat} (hj : j < l.length)
    (hs : (instGet l j).sid = some a) : 1 ≤ useCount l a := by
  induction l generalizing j with
  | nil => simp at hj
  | cons y rest ih =>
    cases j with
    | zero =>
      have hs2 : y.sid = some a := hs
      rw [useCount, if_pos hs2]
      omega
    | succ m =>
      have h1 := ih (by simpa using hj) hs
      rw [useCount]
      by_cases hy : y.sid = some a
      · rw [if_pos hy]
        omega
      · rw [if_neg hy]
        omega

lemma two_le_useCount {l : List Inst} {i j a : Nat} (hi : i < l.length)
    (hj : j < l.length) (hij : i ≠ j) (hsi : (instGet l i).sid = some a)
    (hsj : (instGet l j).sid = some a) : 2 ≤ useCount l a := by
  induction l generalizing i j with
  | nil => simp at hi
  | cons y rest ih =>
    cases i with
    | zero =>
      cases j with
      | zero => exact absurd rfl hij
      | succ m =>
        have h1 := one_le_useCount (l := rest) (by simpa using hj) hsj
        have hs2 : y.sid = some a := hsi
        rw [useCount, if_pos hs2]
        omega
    | succ n =>
      cases j with
      | zero =>
        have h1 := one_le_useCount (l := rest) (by simpa using hi) hsi
        have hs2 : y.sid = some a := hsj
        rw [useCount, if_pos hs2]
        omega
      | succ m =>
        have h1 := ih (by simpa using hi) (by simpa using hj)
          (fun hh => hij (by rw [hh])) hsi hsj
        rw [useCount]
        by_cases hy : y.sid = some a
        · rw [if_pos hy]
          omega
        · rw [if_neg hy]
          omega

lemma not_shared_of_useCount {l : List Inst} {i a : Nat} (hi : i < l.length)
    (hsi : (instGet l i).sid = some a) (hu : ¬ useCount l a + 1 > 2) :
    ∀ j, j < l.length → j ≠ i → (instGet l j).sid ≠ some a := by
  intro j hj hij hsj
  have := two_le_useCount hj hi hij hsj hsi
  omega

lemma push_isSome {s : stack K V} {k : K} {v : V} :
    (push k v s).main_stack.isSome = true ∧
    (push k v s).stacks_map.isSome = true :=
  ⟨rfl, rfl⟩

lemma kvs_push {s : stack K V} {k : K} {v : V} :
    kvs (push k v s) = (k, v) :: kvs s := by
  obtain ⟨mso, smo, sh, c⟩ := s
  cases mso with
  | none => rfl
  | some ms => rfl

lemma kvs_foldl_push (l : List (Entry K V)) :
    ∀ s0 : stack K V,
      kvs (List.foldl (fun acc e => push e.2.1 e.2.2 acc) s0 l) =
        (l.reverse.map fun e => (e.2.1, e.2.2)) ++ kvs s0 := by
  induction l with
  | nil =>
    intro s0
    simp
  | cons e rest ih =>
    intro s0
    rw [List.foldl_cons, ih, List.reverse_cons, List.map_append]
    simp [kvs_push]

lemma inv_foldl_push (l : List (Entry K V)) :
    ∀ s0 : stack K V, Inv s0 →
      Inv (List.foldl (fun acc e => push e.2.1 e.2.2 acc) s0 l) := by
  induction l with
  | nil =>
    intro s0 h
    exact h
  | cons e rest ih =>
    intro s0 h
    exact ih _ (inv_push h)

lemma inv_privatize {s : stack K V} : Inv (privatize s) :=
  inv_foldl_push _ emptyStack inv_empty

lemma foldl_push_isSome (l : List (Entry K V)) :
    ∀ s0 : stack K V, s0.main_stack.isSome = true →
      s0.stacks_map.isSome = true →
      (List.foldl (fun acc e => push e.2.1 e.2.2 acc) s0 l).main_stack.isSome
          = true ∧
      (List.foldl (fun acc e => push e.2.1 e.2.2 acc) s0 l).stacks_map.isSome
          = true := by
  induction l with
  | nil =>
    intro s0 h1 h2
    exact ⟨h1, h2⟩
  | cons e rest ih =>
    intro s0 h1 h2
    exact ih _ push_isSome.1 push_isSome.2

lemma privatize_isSome {s : stack K V} :
    (privatize s).main_stack.isSome = true ∧
    (privatize s).stacks_map.isSome = true :=
  foldl_push_isSome _ emptyStack rfl rfl

lemma kvs_privatize {s : stack K V} : kvs (privatize s) = kvs s := by
  rw [privatize, kvs_foldl_push]
  obtain ⟨mso, smo, sh, c⟩ := s
  cases mso with
  | none => rfl
  | some ms => simp [kvs, emptyStack]

lemma size_eq_kvs_length {s : stack K V} : size s = (kvs s).length := by
  obtain ⟨mso, smo, sh, c⟩ := s
  cases mso with
  | none => rfl
  | some ms => simp [size, kvs]

lemma frontRO_eq_kvs_head {s : stack K V} :
    frontRO s = match kvs s with
      | [] => .error Err.emptyContainer
      | p :: _ => .ok p := by
  obtain ⟨mso, smo, sh, c⟩ := s
  cases mso with
  | none => rfl
  | some ms =>
    cases ms with
    | nil => rfl
    | cons e rest => rfl

lemma keyVals_eq_kvVals {ms : List (Entry K V)} {k : K} :
    keyVals ms k = kvVals (ms.map fun e => (e.2.1, e.2.2)) k := by
  induction ms with
  | nil => rfl
  | cons e rest ih =>
    by_cases he : e.2.1 = k
    · simp [keyVals, kvVals, he, ih]
    · simp [keyVals, kvVals, he, ih]

lemma keyValsS_eq_kvVals {s : stack K V} {k : K} :
    keyValsS s k = kvVals (kvs s) k :=
  keyVals_eq_kvVals

lemma keyIds_length_eq {ms : List (Entry K V)} {k : K} :
    (keyIds ms k).length = (keyVals ms k).length := by
  induction ms with
  | nil => rfl
  | cons e rest ih =>
    by_cases he : e.2.1 = k
    · simp [keyIds, keyVals, he, ih]
    · simp [keyIds, keyVals, he, ih]

lemma count_eq_of_inv {s : stack K V} (h : Inv s) (k : K) :
    count k s = some (keyValsS s k).length := by
  obtain ⟨mso, smo, sh, c⟩ := s
  cases mso with
  | none =>
    cases smo with
    | some _ => exact h.elim
    | none => rfl
  | some ms =>
    cases smo with
    | none => exact h.elim
    | some sm =>
      have hfk := h.2.1 k
      cases hcase : findSM sm k with
      | none =>
        have hnil : keyIds ms k = [] :=
          keyIdsOpt_eq_none_iff.mp (hfk.symm.trans hcase)
        have hvnil : keyVals ms k = [] := keyVals_eq_nil_iff.mpr hnil
        simp only [count, hcase]
        rw [show keyValsS
            (⟨some ms, some sm, sh, c⟩ : stack K V) k = keyVals ms k from rfl,
          hvnil]
        rfl
      | some st =>
        have hst := keyIdsOpt_eq_some_iff.mp (hfk.symm.trans hcase)
        simp only [count, hcase, Option.some_inj]
        rw [show keyValsS
            (⟨some ms, some sm, sh, c⟩ : stack K V) k = keyVals ms k from rfl,
          ← keyIds_length_eq, hst.1]

lemma keys_sorted_of_inv {s : stack K V} (h : Inv s) :
    (keys s).Pairwise fun a b => a < b := by
  obtain ⟨mso, smo, sh, c⟩ := s
  cases mso with
  | none =>
    cases smo with
    | some _ => exact h.elim
    | none => simp [keys]
  | some ms =>
    cases smo with
    | none => exact h.elim
    | some sm =>
      simp only [keys]
      exact List.Pairwise.map Prod.fst (fun a b hab => hab) h.1

lemma sorted_eq_of_mem_iff {l1 l2 : List K}
    (h1 : l1.Pairwise fun a b => a < b) (h2 : l2.Pairwise fun a b => a < b)
    (hm : ∀ x, x ∈ l1 ↔ x ∈ l2) : l1 = l2 := by
  induction l1 generalizing l2 with
  | nil =>
    cases l2 with
    | nil => rfl
    | cons y ys =>
      exact absurd ((hm y).mpr (List.mem_cons_self y ys)) (List.not_mem_nil y)
  | cons x xs ih =>
    cases l2 with
    | nil =>
      exact absurd ((hm x).mp (List.mem_cons_self x xs)) (List.not_mem_nil x)
    | cons y ys =>
      rw [List.pairwise_cons] at h1 h2
      have hxy : x = y := by
        have hx2 : x ∈ y :: ys := (hm x).mp (List.mem_cons_self x xs)
        have hy1 : y ∈ x :: xs := (hm y).mpr (List.mem_cons_self y ys)
        rcases List.mem_cons.mp hx2 with hh | hh
        · exact hh
        · rcases List.mem_cons.mp hy1 with hh2 | hh2
          · exact hh2.symm
          · exact absurd (lt_trans (h2.1 x hh) (h1.1 y hh2)) (lt_irrefl y)
      subst hxy
      congr 1
      apply ih h1.2 h2.2
      intro z
      constructor
      · intro hz
        have hz2 : z ∈ x :: ys := (hm z).mp (List.mem_cons_of_mem _ hz)
        rcases List.mem_cons.mp hz2 with hh | hh
        · rw [hh] at hz
          exact absurd (h1.1 x hz) (lt_irrefl x)
        · exact hh
      · intro hz
        have hz2 : z ∈ x :: xs := (hm z).mpr (List.mem_cons_of_mem _ hz)
        rcases List.mem_cons.mp hz2 with hh | hh
        · rw [hh] at hz
          exact absurd (h2.1 x hz) (lt_irrefl x)
        · exact hh

lemma obs_privatize {s : stack K V} (h : Inv s) : ObsEqS (privatize s) s := by
  have hkvs : kvs (privatize s) = kvs s := kvs_privatize
  refine ⟨?_, ?_, ?_, ?_⟩
  · rw [size_eq_kvs_length, size_eq_kvs_length, hkvs]
  · rw [frontRO_eq_kvs_head, frontRO_eq_kvs_head, hkvs]
  · intro k
    rw [count_eq_of_inv inv_privatize k, count_eq_of_inv h k, Option.some_inj,
      keyValsS_eq_kvVals, keyValsS_eq_kvVals, hkvs]
  · apply sorted_eq_of_mem_iff (keys_sorted_of_inv inv_privatize)
      (keys_sorted_of_inv h)
    intro x
    rw [mem_keys_iff inv_privatize x, mem_keys_iff h x, keyValsS_eq_kvVals,
      keyValsS_eq_kvVals, hkvs]

lemma sid_lt_next {w : World K V} {j b : Nat} (hw : WfW w)
    (hj : j < w.insts.length) (hs : (instGet w.insts j).sid = some b) :
    b < w.next := by
  have h1 := hw.1 j hj b hs
  cases hcase : heapFind w.heap b with
  | none =>
    rw [hcase] at h1
    exact absurd h1 (by simp)
  | some cd => exact hw.2.1 (b, cd) (heapFind_mem hcase)

lemma cellAt_wf {w : World K V} (hw : WfW w) {a : Nat}
    (hs : (heapFind w.heap a).isSome = true) :
    (cellAt w a).main_stack.isSome = true ∧
    (cellAt w a).stacks_map.isSome = true ∧ Inv (cellAt w a) := by
  cases hcase : heapFind w.heap a with
  | none =>
    rw [hcase] at hs
    exact absurd hs (by simp)
  | some c =>
    have h1 := hw.2.2 (a, c) (heapFind_mem hcase)
    rw [cellAt, hcase]
    exact h1

lemma viewOf_frame {w : World K V} {heap2 : List (Nat × stack K V)}
    {n2 j : Nat} {insts2 : List Inst}
    (hinst : instGet insts2 j = instGet w.insts j)
    (hcell : ∀ b, (instGet w.insts j).sid = some b →
      heapFind heap2 b = heapFind w.heap b) :
    viewOf ⟨heap2, n2, insts2⟩ j = viewOf w j := by
  simp only [viewOf, hinst]
  cases hcase : (instGet w.insts j).sid with
  | none => rfl
  | some b => simp only [cellAt, hcell b hcase]

lemma wPop_ok_shape {w : World K V} {i : Nat} {w2 : World K V}
    (hok : wPop w i = .ok w2) :
    (∃ a c, (instGet w.insts i).sid = some a ∧ useCount w.insts a + 1 > 2 ∧
      pop (privatize (cellAt w a)) = .ok c ∧
      w2 = ⟨w.heap ++ [(w.next, c)], w.next + 1,
        setInst w.insts i ⟨some w.next, true⟩⟩) ∨
    (∃ a c, (instGet w.insts i).sid = some a ∧
      ¬ useCount w.insts a + 1 > 2 ∧ pop (cellAt w a) = .ok c ∧
      w2 = ⟨heapSet w.heap a c, w.next, setInst w.insts i ⟨some a, true⟩⟩) := by
  cases hsid : (instGet w.insts i).sid with
  | none =>
    simp only [wPop, hsid] at hok
    exact Except.noConfusion hok
  | some a =>
    simp only [wPop, hsid] at hok
    by_cases hsz : size (cellAt w a) = 0
    · rw [if_pos hsz] at hok
      exact Except.noConfusion hok
    · rw [if_neg hsz] at hok
      by_cases hu : useCount w.insts a + 1 > 2
      · rw [if_pos hu] at hok
        cases hp : pop (privatize (cellAt w a)) with
        | error e =>
          rw [hp] at hok
          exact Except.noConfusion hok
        | ok c =>
          rw [hp] at hok
          injection hok with hok2
          exact Or.inl ⟨a, c, rfl, hu, hp, hok2.symm⟩
      · rw [if_neg hu] at hok
        cases hp : pop (cellAt w a) with
        | error e =>
          rw [hp] at hok
          exact Except.noConfusion hok
        | ok c =>
          rw [hp] at hok
          injection hok with hok2
          exact Or.inr ⟨a, c, rfl, hu, hp, hok2.symm⟩

lemma wPopKey_ok_shape {w : World K V} {i : Nat} {k : K} {w2 : World K V}
    (hok : wPopKey w i k = .ok w2) :
    (∃ a c, (instGet w.insts i).sid = some a ∧ useCount w.insts a + 1 > 2 ∧
      popKey k (privatize (cellAt w a)) = .ok c ∧
      w2 = ⟨w.heap ++ [(w.next, c)], w.next + 1,
        setInst w.insts i ⟨some w.next, true⟩⟩) ∨
    (∃ a c, (instGet w.insts i).sid = some a ∧
      ¬ useCount w.insts a + 1 > 2 ∧ popKey k (cellAt w a) = .ok c ∧
      w2 = ⟨heapSet w.heap a c, w.next, setInst w.insts i ⟨some a, true⟩⟩) := by
  cases hsid : (instGet w.insts i).sid with
  | none =>
    simp only [wPopKey, hsid] at hok
    rw [show popKey k (⟨none, none, true, 0⟩ : stack K V) =
      .error Err.keyNotFound from rfl] at hok
    exact Except.noConfusion hok
  | some a =>
    simp only [wPopKey, hsid] at hok
    by_cases hu : useCount w.insts a + 1 > 2
    · rw [if_pos hu] at hok
      cases hp : popKey k (privatize (cellAt w a)) with
      | error e =>
        rw [hp] at hok
        exact Except.noConfusion hok
      | ok c =>
        rw [hp] at hok
        injection hok with hok2
        exact Or.inl ⟨a, c, rfl, hu, hp, hok2.symm⟩
    · rw [if_neg hu] at hok
      cases hp : popKey k (cellAt w a) with
      | error e =>
        rw [hp] at hok
        exact Except.noConfusion hok
      | ok c =>
        rw [hp] at hok
        injection hok with hok2
        exact Or.inr ⟨a, c, rfl, hu, hp, hok2.symm⟩

lemma wFrontMut_ok_shape {w : World K V} {i : Nat} {p : K × V}
    {wr : World K V} {t : Nat} (hok : wFrontMut w i = .ok (p, wr, t)) :
    (∃ a, (instGet w.insts i).sid = some a ∧ useCount w.insts a + 1 > 2 ∧
      wr = ⟨w.heap ++ [(w.next, privatize (cellAt w a))], w.next + 1,
        setInst w.insts i ⟨some w.next, false⟩⟩ ∧ t = w.next) ∨
    (∃ a, (instGet w.insts i).sid = some a ∧ ¬ useCount w.insts a + 1 > 2 ∧
      wr = ⟨w.heap, w.next, setInst w.insts i ⟨some a, false⟩⟩ ∧ t = a) := by
  cases hsid : (instGet w.insts i).sid with
  | none =>
    simp only [wFrontMut, hsid] at hok
    exact Except.noConfusion hok
  | some a =>
    simp only [wFrontMut, hsid] at hok
    by_cases hsz : size (cellAt w a) = 0
    · rw [if_pos hsz] at hok
      exact Except.noConfusion hok
    · rw [if_neg hsz] at hok
      by_cases hu : useCount w.insts a + 1 > 2
      · rw [if_pos hu] at hok
        cases hp : frontRO (privatize (cellAt w a)) with
        | error e =>
          rw [hp] at hok
          exact Except.noConfusion hok
        | ok p0 =>
          rw [hp] at hok
          simp only [Except.ok.injEq, Prod.mk.injEq] at hok
          exact Or.inl ⟨a, rfl, hu, hok.2.1.symm, hok.2.2.symm⟩
      · rw [if_neg hu] at hok
        cases hp : frontRO (cellAt w a) with
        | error e =>
          rw [hp] at hok
          exact Except.noConfusion hok
        | ok p0 =>
          rw [hp] at hok
          simp only [Except.ok.injEq, Prod.mk.injEq] at hok
          exact Or.inr ⟨a, rfl, hu, hok.2.1.symm, hok.2.2.symm⟩

lemma wFrontKeyMut_ok_shape {w : World K V} {i : Nat} {k : K} {v0 : V}
    {wr : World K V} {t : Nat} (hok : wFrontKeyMut w i k = .ok (v0, wr, t)) :
    (∃ a, (instGet w.insts i).sid = some a ∧ useCount w.insts a + 1 > 2 ∧
      wr = ⟨w.heap ++ [(w.next, privatize (cellAt w a))], w.next + 1,
        setInst w.insts i ⟨some w.next, false⟩⟩ ∧ t = w.next) ∨
    (∃ a, (instGet w.insts i).sid = some a ∧ ¬ useCount w.insts a + 1 > 2 ∧
      wr = ⟨w.heap, w.next, setInst w.insts i ⟨some a, false⟩⟩ ∧ t = a) := by
  cases hsid : (instGet w.insts i).sid with
  | none =>
    simp only [wFrontKeyMut, hsid] at hok
    rw [show frontKeyMut k (⟨none, none, true, 0⟩ : stack K V) =
      .error Err.keyNotFound from rfl] at hok
    exact Except.noConfusion hok
  | some a =>
    simp only [wFrontKeyMut, hsid] at hok
    by_cases hu : useCount w.insts a + 1 > 2
    · rw [if_pos hu] at hok
      cases hp : frontKeyMut k (privatize (cellAt w a)) with
      | error e =>
        rw [hp] at hok
        exact Except.noConfusion hok
      | ok r =>
        rw [hp] at hok
        simp only [Except.ok.injEq, Prod.mk.injEq] at hok
        exact Or.inl ⟨a, rfl, hu, hok.2.1.symm, hok.2.2.symm⟩
    · rw [if_neg hu] at hok
      cases hp : frontKeyMut k (cellAt w a) with
      | error e =>
        rw [hp] at hok
        exact Except.noConfusion hok
      | ok r =>
        rw [hp] at hok
        simp only [Except.ok.injEq, Prod.mk.injEq] at hok
        exact Or.inr ⟨a, rfl, hu, hok.2.1.symm, hok.2.2.symm⟩

lemma viewOf_commit_append {w : World K V} {i j : Nat} (hw : WfW w)
    (hj : j < w.insts.length) (hij : j ≠ i) (c : stack K V) (n2 : Nat)
    (x : Inst) :
    viewOf ⟨w.heap ++ [(w.next, c)], n2, setInst w.insts i x⟩ j =
      viewOf w j := by
  apply viewOf_frame (instGet_set_ne hij)
  intro b hb
  exact heapFind_append_ne (Nat.ne_of_lt (sid_lt_next hw hj hb))

lemma viewOf_commit_set {w : World K V} {i j a : Nat} (hw : WfW w)
    (hi : i < w.insts.length) (hj : j < w.insts.length) (hij : j ≠ i)
    (ha : (instGet w.insts i).sid = some a)
    (hu : ¬ useCount w.insts a + 1 > 2) (c : stack K V) (n2 : Nat)
    (x : Inst) :
    viewOf ⟨heapSet w.heap a c, n2, setInst w.insts i x⟩ j = viewOf w j := by
  apply viewOf_frame (instGet_set_ne hij)
  intro b hb
  apply heapFind_set_ne
  intro hba
  exact not_shared_of_useCount hi ha hu j hj hij (hba ▸ hb)

lemma viewOf_commit_keep {w : World K V} {i j : Nat} (hij : j ≠ i)
    (n2 : Nat) (x : Inst) :
    viewOf ⟨w.heap, n2, setInst w.insts i x⟩ j = viewOf w j := by
  apply viewOf_frame (instGet_set_ne hij)
  intro b hb
  rfl

lemma frame_applyW {w : World K V} {i j : Nat} (hw : WfW w)
    (hi : i < w.insts.length) (hj : j < w.insts.length) (hij : j ≠ i)
    (o : WOp K V) : viewOf (applyW o i w) j = viewOf w j := by
  cases o with
  | push k v =>
    simp only [applyW, wPush]
    cases hsid : (instGet w.insts i).sid with
    | none => exact viewOf_commit_append hw hj hij _ _ _
    | some a =>
      dsimp only
      by_cases hu : useCount w.insts a + 1 > 2
      · rw [if_pos hu]
        exact viewOf_commit_append hw hj hij _ _ _
      · rw [if_neg hu]
        exact viewOf_commit_set hw hi hj hij hsid hu _ _ _
  | pop =>
    simp only [applyW]
    cases hres : wPop w i with
    | error e => rfl
    | ok w2 =>
      rcases wPop_ok_shape hres with ⟨a, c, ha, hu, hp, hw2⟩ |
        ⟨a, c, ha, hu, hp, hw2⟩
      · rw [hw2]
        exact viewOf_commit_append hw hj hij _ _ _
      · rw [hw2]
        exact viewOf_commit_set hw hi hj hij ha hu _ _ _
  | popKey k =>
    simp only [applyW]
    cases hres : wPopKey w i k with
    | error e => rfl
    | ok w2 =>
      rcases wPopKey_ok_shape hres with ⟨a, c, ha, hu, hp, hw2⟩ |
        ⟨a, c, ha, hu, hp, hw2⟩
      · rw [hw2]
        exact viewOf_commit_append hw hj hij _ _ _
      · rw [hw2]
        exact viewOf_commit_set hw hi hj hij ha hu _ _ _
  | frontMut =>
    simp only [applyW]
    cases hres : wFrontMut w i with
    | error e => rfl
    | ok r =>
      obtain ⟨p, wr, t⟩ := r
      rcases wFrontMut_ok_shape hres with ⟨a, ha, hu, hwr, ht⟩ |
        ⟨a, ha, hu, hwr, ht⟩
      · rw [hwr]
        exact viewOf_commit_append hw hj hij _ _ _
      · rw [hwr]
        exact viewOf_commit_keep hij _ _
  | frontKeyMut k =>
    simp only [applyW]
    cases hres : wFrontKeyMut w i k with
    | error e => rfl
    | ok r =>
      obtain ⟨v0, wr, t⟩ := r
      rcases wFrontKeyMut_ok_shape hres with ⟨a, ha, hu, hwr, ht⟩ |
        ⟨a, ha, hu, hwr, ht⟩
      · rw [hwr]
        exact viewOf_commit_append hw hj hij _ _ _
      · rw [hwr]
        exact viewOf_commit_keep hij _ _
  | clear =>
    simp only [applyW, wClear]
    exact viewOf_commit_keep hij _ _

lemma frame_write_generic {w wr : World K V} {j t : Nat} {p2 : Nat} {v : V}
    (hview : viewOf wr j = viewOf w j)
    (hinst : instGet wr.insts j = instGet w.insts j)
    (hnt : ∀ b, (instGet w.insts j).sid = some b → b ≠ t) :
    viewOf (wWriteAt wr t p2 v) j = viewOf w j := by
  rw [← hview]
  simp only [wWriteAt]
  apply viewOf_frame rfl
  intro b hb
  rw [hinst] at hb
  exact heapFind_set_ne (hnt b hb)

lemma frame_write_after_frontMut {w : World K V} {i j : Nat} {p : K × V}
    {wr : World K V} {t : Nat} (hw : WfW w) (hi : i < w.insts.length)
    (hj : j < w.insts.length) (hij : j ≠ i)
    (hok : wFrontMut w i = .ok (p, wr, t)) (p2 : Nat) (v : V) :
    viewOf (wWriteAt wr t p2 v) j = viewOf w j := by
  rcases wFrontMut_ok_shape hok with ⟨a, ha, hu, hwr, ht⟩ |
    ⟨a, ha, hu, hwr, ht⟩
  · apply frame_write_generic (w := w)
    · rw [hwr]
      exact viewOf_commit_append hw hj hij _ _ _
    · rw [hwr]
      exact instGet_set_ne hij
    · intro b hb
      rw [ht]
      exact Nat.ne_of_lt (sid_lt_next hw hj hb)
  · apply frame_write_generic (w := w)
    · rw [hwr]
      exact viewOf_commit_keep hij _ _
    · rw [hwr]
      exact instGet_set_ne hij
    · intro b hb
      rw [ht]
      intro hba
      exact not_shared_of_useCount hi ha hu j hj hij (hba ▸ hb)

lemma frame_write_after_frontKeyMut {w : World K V} {i j : Nat} {k : K}
    {v0 : V} {wr : World K V} {t : Nat} (hw : WfW w)
    (hi : i < w.insts.length) (hj : j < w.insts.length) (hij : j ≠ i)
    (hok : wFrontKeyMut w i k = .ok (v0, wr, t)) (p2 : Nat) (v : V) :
    viewOf (wWriteAt wr t p2 v) j = viewOf w j := by
  rcases wFrontKeyMut_ok_shape hok with ⟨a, ha, hu, hwr, ht⟩ |
    ⟨a, ha, hu, hwr, ht⟩
  · apply frame_write_generic (w := w)
    · rw [hwr]
      exact viewOf_commit_append hw hj hij _ _ _
    · rw [hwr]
      exact instGet_set_ne hij
    · intro b hb
      rw [ht]
      exact Nat.ne_of_lt (sid_lt_next hw hj hb)
  · apply frame_write_generic (w := w)
    · rw [hwr]
      exact viewOf_commit_keep hij _ _
    · rw [hwr]
      exact instGet_set_ne hij
    · intro b hb
      rw [ht]
      intro hba
      exact not_shared_of_useCount hi ha hu j hj hij (hba ▸ hb)

lemma popKey_ok_isSome {s s2 : stack K V} {k : K}
    (hok : popKey k s = .ok s2) :
    s2.main_stack.isSome = true ∧ s2.stacks_map.isSome = true := by
  obtain ⟨mso, smo, sh, c⟩ := s
  cases mso with
  | none =>
    cases smo with
    | none => simp [popKey, findSM] at hok
    | some sm => simp [popKey, findSM] at hok
  | some ms =>
    cases smo with
    | none => simp [popKey] at hok
    | some sm =>
      cases hcase : findSM sm k with
      | none => simp [popKey, hcase] at hok
      | some st =>
        cases st with
        | nil => simp [popKey, hcase] at hok
        | cons p st2 =>
          simp only [popKey, hcase, Except.ok.injEq] at hok
          subst hok
          exact ⟨rfl, rfl⟩

lemma mem_setValList {ms : List (Entry K V)} {p : Nat} {v : V}
    {x : Entry K V} (hx : x ∈ setValList ms p v) : ∃ y ∈ ms, y.1 = x.1 := by
  induction ms with
  | nil => simp [setValList] at hx
  | cons e rest ih =>
    by_cases he : e.1 = p
    · rw [setValList, if_pos he] at hx
      rcases List.mem_cons.mp hx with h1 | h1
      · exact ⟨e, List.mem_cons_self e rest, by rw [h1]⟩
      · exact ⟨x, List.mem_cons_of_mem _ h1, rfl⟩
    · rw [setValList, if_neg he] at hx
      rcases List.mem_cons.mp hx with h1 | h1
      · exact ⟨e, List.mem_cons_self e rest, by rw [h1]⟩
      · obtain ⟨y, hy, hy1⟩ := ih h1
        exact ⟨y, List.mem_cons_of_mem _ hy, hy1⟩

lemma keyIds_setValList {ms : List (Entry K V)} {p : Nat} {v : V} {k : K} :
    keyIds (setValList ms p v) k = keyIds ms k := by
  induction ms with
  | nil => rfl
  | cons e rest ih =>
    by_cases he : e.1 = p
    · by_cases hk : e.2.1 = k
      · simp [setValList, he, keyIds, hk]
      · simp [setValList, he, keyIds, hk]
    · by_cases hk : e.2.1 = k
      · simp [setValList, he, keyIds, hk, ih]
      · simp [setValList, he, keyIds, hk, ih]

lemma pairwise_setValList {ms : List (Entry K V)} {p : Nat} {v : V}
    (hp : ms.Pairwise fun a b => b.1 < a.1) :
    (setValList ms p v).Pairwise fun a b => b.1 < a.1 := by
  induction ms with
  | nil => simp [setValList]
  | cons e rest ih =>
    rw [List.pairwise_cons] at hp
    by_cases he : e.1 = p
    · rw [setValList, if_pos he, List.pairwise_cons]
      exact ⟨fun b hb => hp.1 b hb, hp.2⟩
    · rw [setValList, if_neg he, List.pairwise_cons]
      refine ⟨fun b hb => ?_, ih hp.2⟩
      obtain ⟨y, hy, hy1⟩ := mem_setValList hb
      have h3 := hp.1 y hy
      rw [hy1] at h3
      exact h3

lemma inv_setValAt {s : stack K V} {p : Nat} {v : V} (h : Inv s) :
    Inv (setValAt p v s) := by
  obtain ⟨mso, smo, sh, c⟩ := s
  cases mso with
  | none => exact h
  | some ms =>
    cases smo with
    | none => exact h.elim
    | some sm =>
      obtain ⟨h1, h2, h3, h4⟩ := h
      refine ⟨h1, ?_, pairwise_setValList h3, ?_⟩
      · intro k
        rw [h2 k, keyIdsOpt, keyIdsOpt, keyIds_setValList]
      · intro e he
        obtain ⟨y, hy, hy1⟩ := mem_setValList he
        rw [← hy1]
        exact h4 y hy

lemma setValAt_isSome {s : stack K V} {p : Nat} {v : V}
    (h1 : s.main_stack.isSome = true) (h2 : s.stacks_map.isSome = true) :
    (setValAt p v s).main_stack.isSome = true ∧
    (setValAt p v s).stacks_map.isSome = true := by
  obtain ⟨mso, smo, sh, c⟩ := s
  cases mso with
  | none => exact ⟨h1, h2⟩
  | some ms => exact ⟨rfl, h2⟩

lemma heapFind_isSome_of_mem {h : List (Nat × stack K V)} {t : Nat}
    {y : Nat × stack K V} (hy : y ∈ h) (ht : y.1 = t) :
    (heapFind h t).isSome = true := by
  induction h with
  | nil => simp at hy
  | cons e rest ih =>
    rcases List.mem_cons.mp hy with h1 | h1
    · rw [heapFind, if_pos (h1 ▸ ht : e.1 = t)]
      rfl
    · by_cases he : e.1 = t
      · rw [heapFind, if_pos he]
        rfl
      · rw [heapFind, if_neg he]
        exact ih h1

lemma wfW_commit_append {w : World K V} {i : Nat} {c : stack K V}
    {sh2 : Bool} (hw : WfW w) (hi : i < w.insts.length)
    (hc1 : c.main_stack.isSome = true) (hc2 : c.stacks_map.isSome = true)
    (hc3 : Inv c) :
    WfW ⟨w.heap ++ [(w.next, c)], w.next + 1,
      setInst w.insts i ⟨some w.next, sh2⟩⟩ := by
  obtain ⟨hw1, hw2, hw3⟩ := hw
  refine ⟨?_, ?_, ?_⟩
  · intro m hm b hb
    rw [setInst_length] at hm
    by_cases hmi : m = i
    · subst hmi
      rw [instGet_set_self hm] at hb
      injection hb with hb2
      subst hb2
      rw [heapFind_append_self (heapFind_none_of_bound hw2)]
      rfl
    · rw [instGet_set_ne hmi] at hb
      have hlt : b < w.next := sid_lt_next ⟨hw1, hw2, hw3⟩ hm hb
      rw [heapFind_append_ne (Nat.ne_of_lt hlt)]
      exact hw1 m hm b hb
  · intro e he
    rcases List.mem_append.mp he with h1 | h1
    · exact Nat.lt_succ_of_lt (hw2 e h1)
    · rw [List.mem_singleton] at h1
      rw [h1]
      exact Nat.lt_succ_self w.next
  · intro e he
    rcases List.mem_append.mp he with h1 | h1
    · exact hw3 e h1
    · rw [List.mem_singleton] at h1
      rw [h1]
      exact ⟨hc1, hc2, hc3⟩

lemma wfW_commit_set {w : World K V} {i a : Nat} {c : stack K V}
    {sh2 : Bool} (hw : WfW w) (hi : i < w.insts.length)
    (hsid : (instGet w.insts i).sid = some a)
    (hc1 : c.main_stack.isSome = true) (hc2 : c.stacks_map.isSome = true)
    (hc3 : Inv c) :
    WfW ⟨heapSet w.heap a c, w.next, setInst w.insts i ⟨some a, sh2⟩⟩ := by
  obtain ⟨hw1, hw2, hw3⟩ := hw
  have hasome : (heapFind w.heap a).isSome = true := hw1 i hi a hsid
  refine ⟨?_, ?_, ?_⟩
  · intro m hm b hb
    rw [setInst_length] at hm
    by_cases hmi : m = i
    · subst hmi
      rw [instGet_set_self hm] at hb
      injection hb with hb2
      subst hb2
      rw [heapFind_set_self hasome]
      rfl
    · rw [instGet_set_ne hmi] at hb
      by_cases hba : b = a
      · subst hba
        rw [heapFind_set_self hasome]
        rfl
      · rw [heapFind_set_ne hba]
        exact hw1 m hm b hb
  · intro e he
    rcases mem_heapSet he with h1 | ⟨h1, y, hy, hy1⟩
    · exact hw2 e h1
    · rw [h1]
      have h3 := hw2 y hy
      rw [hy1] at h3
      exact h3
  · intro e he
    rcases mem_heapSet he with h1 | ⟨h1, y, hy, hy1⟩
    · exact hw3 e h1
    · rw [h1]
      exact ⟨hc1, hc2, hc3⟩

lemma wfW_insts_set_keep {w : World K V} {i : Nat} (hw : WfW w)
    (hi : i < w.insts.length) (x : Inst)
    (hx : ∀ b, x.sid = some b → (heapFind w.heap b).isSome = true) :
    WfW ⟨w.heap, w.next, setInst w.insts i x⟩ := by
  refine ⟨?_, hw.2.1, hw.2.2⟩
  intro m hm b hb
  rw [setInst_length] at hm
  by_cases hmi : m = i
  · subst hmi
    rw [instGet_set_self hm] at hb
    exact hx b hb
  · rw [instGet_set_ne hmi] at hb
    exact hw.1 m hm b hb

lemma wfW_append_inst {w : World K V} {c : stack K V} (hw : WfW w)
    (hc1 : c.main_stack.isSome = true) (hc2 : c.stacks_map.isSome = true)
    (hc3 : Inv c) :
    WfW ⟨w.heap ++ [(w.next, c)], w.next + 1,
      w.insts ++ [⟨some w.next, true⟩]⟩ := by
  obtain ⟨hw1, hw2, hw3⟩ := hw
  refine ⟨?_, ?_, ?_⟩
  · intro m hm b hb
    rw [List.length_append, List.length_cons, List.length_nil] at hm
    by_cases hml : m < w.insts.length
    · rw [instGet_append_lt hml] at hb
      have hlt : b < w.next := sid_lt_next ⟨hw1, hw2, hw3⟩ hml hb
      rw [heapFind_append_ne (Nat.ne_of_lt hlt)]
      exact hw1 m hml b hb
    · have hmeq : m = w.insts.length := by omega
      subst hmeq
      rw [instGet_append_self] at hb
      injection hb with hb2
      subst hb2
      rw [heapFind_append_self (heapFind_none_of_bound hw2)]
      rfl
  · intro e he
    rcases List.mem_append.mp he with h1 | h1
    · exact Nat.lt_succ_of_lt (hw2 e h1)
    · rw [List.mem_singleton] at h1
      rw [h1]
      exact Nat.lt_succ_self w.next
  · intro e he
    rcases List.mem_append.mp he with h1 | h1
    · exact hw3 e h1
    · rw [List.mem_singleton] at h1
      rw [h1]
      exact ⟨hc1, hc2, hc3⟩

lemma wfW_alias_inst {w : World K V} {a : Nat} (hw : WfW w)
    (ha : a < w.insts.length) :
    WfW ⟨w.heap, w.next, w.insts ++ [⟨(instGet w.insts a).sid, true⟩]⟩ := by
  refine ⟨?_, hw.2.1, hw.2.2⟩
  intro m hm b hb
  rw [List.length_append, List.length_cons, List.length_nil] at hm
  by_cases hml : m < w.insts.length
  · rw [instGet_append_lt hml] at hb
    exact hw.1 m hml b hb
  · have hmeq : m = w.insts.length := by omega
    subst hmeq
    rw [instGet_append_self] at hb
    exact hw.1 a ha b hb

lemma wf_wCopy {w : World K V} {a : Nat} (hw : WfW w)
    (ha : a < w.insts.length) : WfW (wCopy w a) := by
  simp only [wCopy]
  by_cases hsh : (instGet w.insts a).shareable = true
  · rw [if_pos hsh]
    exact wfW_alias_inst hw ha
  · rw [if_neg hsh]
    cases hsid : (instGet w.insts a).sid with
    | none =>
      dsimp only
      exact wfW_append_inst hw rfl rfl inv_empty
    | some x =>
      dsimp only
      exact wfW_append_inst hw privatize_isSome.1 privatize_isSome.2
        inv_privatize

lemma wf_wNew {w : World K V} (hw : WfW w) : WfW (wNew w) := by
  simp only [wNew]
  exact wfW_append_inst hw rfl rfl inv_empty

lemma wf_wWriteAt {w : World K V} {t p : Nat} {v : V} (hw : WfW w) :
    WfW (wWriteAt w t p v) := by
  obtain ⟨hw1, hw2, hw3⟩ := hw
  simp only [wWriteAt]
  refine ⟨?_, ?_, ?_⟩
  · intro m hm b hb
    have h1 := hw1 m hm b hb
    by_cases hbt : b = t
    · subst hbt
      rw [heapFind_set_self h1]
      rfl
    · rw [heapFind_set_ne hbt]
      exact h1
  · intro e he
    rcases mem_heapSet he with h1 | ⟨h1, y, hy, hy1⟩
    · exact hw2 e h1
    · rw [h1]
      have h3 := hw2 y hy
      rw [hy1] at h3
      exact h3
  · intro e he
    rcases mem_heapSet he with h1 | ⟨h1, y, hy, hy1⟩
    · exact hw3 e h1
    · rw [h1]
      have hts : (heapFind w.heap t).isSome = true :=
        heapFind_isSome_of_mem hy hy1
      obtain ⟨hc1, hc2, hc3⟩ := cellAt_wf ⟨hw1, hw2, hw3⟩ hts
      obtain ⟨hs1, hs2⟩ := setValAt_isSome hc1 hc2
      exact ⟨hs1, hs2, inv_setValAt hc3⟩

lemma wf_empty_world : WfW (⟨[], 0, []⟩ : World K V) := by
  refine ⟨?_, ?_, ?_⟩
  · intro m hm b hb
    simp at hm
  · intro e he
    simp at he
  · intro e he
    simp at he

lemma wf_applyW {w : World K V} {i : Nat} (hw : WfW w)
    (hi : i < w.insts.length) (o : WOp K V) : WfW (applyW o i w) := by
  cases o with
  | push k v =>
    simp only [applyW, wPush]
    cases hsid : (instGet w.insts i).sid with
    | none =>
      dsimp only
      exact wfW_commit_append hw hi push_isSome.1 push_isSome.2
        (inv_push trivial)
    | some a =>
      dsimp only
      have hasome := hw.1 i hi a hsid
      obtain ⟨hc1, hc2, hc3⟩ := cellAt_wf hw hasome
      by_cases hu : useCount w.insts a + 1 > 2
      · rw [if_pos hu]
        exact wfW_commit_append hw hi push_isSome.1 push_isSome.2
          (inv_push inv_privatize)
      · rw [if_neg hu]
        exact wfW_commit_set hw hi hsid push_isSome.1 push_isSome.2
          (inv_push hc3)
  | pop =>
    simp only [applyW]
    cases hres : wPop w i with
    | error e => exact hw
    | ok w2 =>
      rcases wPop_ok_shape hres with ⟨a, c, ha, hu, hp, hw2⟩ |
        ⟨a, c, ha, hu, hp, hw2⟩
      · subst hw2
        obtain ⟨e0, r0, -, hm2, hsm2, -, -⟩ := pop_ok_shape hp
        exact wfW_commit_append hw hi (by rw [hm2]; rfl) hsm2
          (inv_pop inv_privatize hp)
      · subst hw2
        have hasome := hw.1 i hi a ha
        obtain ⟨hc1, hc2, hc3⟩ := cellAt_wf hw hasome
        obtain ⟨e0, r0, -, hm2, hsm2, -, -⟩ := pop_ok_shape hp
        exact wfW_commit_set hw hi ha (by rw [hm2]; rfl) hsm2
          (inv_pop hc3 hp)
  | popKey k =>
    simp only [applyW]
    cases hres : wPopKey w i k with
    | error e => exact hw
    | ok w2 =>
      rcases wPopKey_ok_shape hres with ⟨a, c, ha, hu, hp, hw2⟩ |
        ⟨a, c, ha, hu, hp, hw2⟩
      · subst hw2
        obtain ⟨hm2, hsm2⟩ := popKey_ok_isSome hp
        exact wfW_commit_append hw hi hm2 hsm2 (inv_popKey inv_privatize hp)
      · subst hw2
        have hasome := hw.1 i hi a ha
        obtain ⟨hc1, hc2, hc3⟩ := cellAt_wf hw hasome
        obtain ⟨hm2, hsm2⟩ := popKey_ok_isSome hp
        exact wfW_commit_set hw hi ha hm2 hsm2 (inv_popKey hc3 hp)
  | frontMut =>
    simp only [applyW]
    cases hres : wFrontMut w i with
    | error e => exact hw
    | ok r =>
      obtain ⟨p, wr, t⟩ := r
      rcases wFrontMut_ok_shape hres with ⟨a, ha, hu, hwr, ht⟩ |
        ⟨a, ha, hu, hwr, ht⟩
      · rw [hwr]
        exact wfW_commit_append hw hi privatize_isSome.1 privatize_isSome.2
          inv_privatize
      · rw [hwr]
        apply wfW_insts_set_keep hw hi
        intro b hb
        injection hb with hb2
        subst hb2
        exact hw.1 i hi a ha
  | frontKeyMut k =>
    simp only [applyW]
    cases hres : wFrontKeyMut w i k with
    | error e => exact hw
    | ok r =>
      obtain ⟨v0, wr, t⟩ := r
      rcases wFrontKeyMut_ok_shape hres with ⟨a, ha, hu, hwr, ht⟩ |
        ⟨a, ha, hu, hwr, ht⟩
      · rw [hwr]
        exact wfW_commit_append hw hi privatize_isSome.1 privatize_isSome.2
          inv_privatize
      · rw [hwr]
        apply wfW_insts_set_keep hw hi
        intro b hb
        injection hb with hb2
        subst hb2
        exact hw.1 i hi a ha
  | clear =>
    simp only [applyW, wClear]
    apply wfW_insts_set_keep hw hi
    intro b hb
    exact Option.noConfusion hb

lemma obsEqS_of_eq {s t : stack K V} (h : s = t) : ObsEqS s t := by
  subst h
  exact ⟨rfl, rfl, fun k => rfl, rfl⟩

lemma viewOf_last_append {w : World K V} {heap2 : List (Nat × stack K V)}
    {n2 : Nat} {x : Inst} :
    viewOf ⟨heap2, n2, w.insts ++ [x]⟩ w.insts.length =
      (match x.sid with
       | none => (⟨none, none, x.shareable, 0⟩ : stack K V)
       | some b => (heapFind heap2 b).getD emptyStack) := by
  simp only [viewOf, cellAt]
  rw [instGet_append_self]

lemma wCopy_shareable_sid {w : World K V} {a : Nat}
    (hsh : (instGet w.insts a).shareable = true) :
    (instGet (wCopy w a).insts w.insts.length).sid =
      (instGet w.insts a).sid := by
  simp only [wCopy, if_pos hsh]
  rw [instGet_append_self]

lemma obs_copy_view {w : World K V} (hw : WfW w) {a : Nat}
    (ha : a < w.insts.length) :
    ObsEqS (viewOf (wCopy w a) w.insts.length) (viewOf w a) := by
  simp only [wCopy]
  by_cases hsh : (instGet w.insts a).shareable = true
  · rw [if_pos hsh]
    rw [viewOf_last_append]
    cases hsid : (instGet w.insts a).sid with
    | none =>
      simp only [viewOf, hsid]
      exact ⟨rfl, rfl, fun k => rfl, rfl⟩
    | some x =>
      simp only [viewOf, hsid]
      exact obsEqS_of_eq rfl
  · rw [if_neg hsh]
    cases hsid : (instGet w.insts a).sid with
    | none =>
      dsimp only
      rw [viewOf_last_append]
      dsimp only
      rw [heapFind_append_self (heapFind_none_of_bound hw.2.1)]
      simp only [viewOf, hsid]
      exact ⟨rfl, rfl, fun k => rfl, rfl⟩
    | some x =>
      dsimp only
      rw [viewOf_last_append]
      dsimp only
      rw [heapFind_append_self (heapFind_none_of_bound hw.2.1)]
      simp only [viewOf, hsid]
      exact obs_privatize (cellAt_wf hw (hw.1 a ha x hsid)).2.2

/-- Claim C4: copy independence under copy-on-write sharing.  Creating B
as a copy of A yields a well-formed world in which B observes exactly
what A observes; and in every well-formed world, every state-changing
operation on one instance — push, pop, pop(k), mutable front() and
front(k) including later writes through the returned references, and
clear — leaves every observation (size, front, per-key counts, key
iteration) through every other instance unchanged and preserves
well-formedness, so the frame property applies again to each subsequent
mutation, in both directions between A and B. -/
theorem c4_copy_independence (w : World K V) (a : Nat) (hw : WfW w)
    (ha : a < w.insts.length) :
    (WfW (wCopy w a) ∧
      ObsEqS (viewOf (wCopy w a) w.insts.length) (viewOf w a)) ∧
    ∀ w2 : World K V, WfW w2 → ∀ i j, i < w2.insts.length →
      j < w2.insts.length → j ≠ i →
      (∀ o : WOp K V, WfW (applyW o i w2) ∧
        ObsEqS (viewOf (applyW o i w2) j) (viewOf w2 j)) ∧
      (∀ p wr t, wFrontMut w2 i = .ok (p, wr, t) →
        ∀ p2 v, ObsEqS (viewOf (wWriteAt wr t p2 v) j) (viewOf w2 j)) ∧
      (∀ v0 wr t k, wFrontKeyMut w2 i k = .ok (v0, wr, t) →
        ∀ p2 v, ObsEqS (viewOf (wWriteAt wr t p2 v) j) (viewOf w2 j)) := by
  refine ⟨⟨wf_wCopy hw ha, obs_copy_view hw ha⟩, ?_⟩
  intro w2 hw2 i j hi hj hij
  refine ⟨fun o => ⟨wf_applyW hw2 hi o,
    obsEqS_of_eq (frame_applyW hw2 hi hj hij o)⟩, ?_, ?_⟩
  · intro p wr t hok p2 v
    exact obsEqS_of_eq (frame_write_after_frontMut hw2 hi hj hij hok p2 v)
  · intro v0 wr t k hok p2 v
    exact obsEqS_of_eq (frame_write_after_frontKeyMut hw2 hi hj hij hok p2 v)

/-- Claim C10: copying a non-shareable stack A allocates fresh private
storage for the copy B with the same observable contents, B itself is
created shareable, and a later copy of B aliases B's storage: the
non-shareable mark does not propagate to copies. -/
theorem c10_copy_of_nonshareable (w : World K V) (a : Nat) (hw : WfW w)
    (ha : a < w.insts.length)
    (hsh : (instGet w.insts a).shareable = false) :
    (instGet (wCopy w a).insts w.insts.length).sid = some w.next ∧
    heapFind w.heap w.next = none ∧
    (∀ j, j < w.insts.length →
      (instGet (wCopy w a).insts j).sid ≠ some w.next) ∧
    ObsEqS (viewOf (wCopy w a) w.insts.length) (viewOf w a) ∧
    (instGet (wCopy w a).insts w.insts.length).shareable = true ∧
    (instGet (wCopy (wCopy w a) w.insts.length).insts
        (wCopy w a).insts.length).sid =
      (instGet (wCopy w a).insts w.insts.length).sid := by
  have hsh2 : ¬ (instGet w.insts a).shareable = true := by
    rw [hsh]
    exact Bool.false_ne_true
  have hinsts : (wCopy w a).insts = w.insts ++ [⟨some w.next, true⟩] := by
    simp only [wCopy]
    rw [if_neg hsh2]
    cases hsid : (instGet w.insts a).sid with
    | none => rfl
    | some x => rfl
  have hlast : instGet (wCopy w a).insts w.insts.length =
      (⟨some w.next, true⟩ : Inst) := by
    rw [hinsts]
    exact instGet_append_self
  refine ⟨by rw [hlast], heapFind_none_of_bound hw.2.1, ?_, ?_, by rw [hlast],
    ?_⟩
  · intro j hj
    rw [hinsts, instGet_append_lt hj]
    cases hsid : (instGet w.insts j).sid with
    | none => simp
    | some b =>
      have hlt : b < w.next := sid_lt_next hw hj hsid
      simp only [ne_eq, Option.some_inj]
      omega
  · exact obs_copy_view hw ha
  · have hshB : (instGet (wCopy w a).insts w.insts.length).shareable =
        true := by rw [hlast]
    exact wCopy_shareable_sid hshB

/-- Claim C4 witness, at a world with one freshly constructed instance
holding one storage cell. -/
theorem c4_witness :
    (WfW (wCopy (wNew (⟨[], 0, []⟩ : World Char Nat)) 0) ∧
      ObsEqS (viewOf (wCopy (wNew (⟨[], 0, []⟩ : World Char Nat)) 0)
          (wNew (⟨[], 0, []⟩ : World Char Nat)).insts.length)
        (viewOf (wNew (⟨[], 0, []⟩ : World Char Nat)) 0)) ∧
    ∀ w2 : World Char Nat, WfW w2 → ∀ i j, i < w2.insts.length →
      j < w2.insts.length → j ≠ i →
      (∀ o : WOp Char Nat, WfW (applyW o i w2) ∧
        ObsEqS (viewOf (applyW o i w2) j) (viewOf w2 j)) ∧
      (∀ p wr t, wFrontMut w2 i = .ok (p, wr, t) →
        ∀ p2 v, ObsEqS (viewOf (wWriteAt wr t p2 v) j) (viewOf w2 j)) ∧
      (∀ v0 wr t k, wFrontKeyMut w2 i k = .ok (v0, wr, t) →
        ∀ p2 v, ObsEqS (viewOf (wWriteAt wr t p2 v) j) (viewOf w2 j)) :=
  c4_copy_independence (wNew ⟨[], 0, []⟩) 0 (wf_wNew wf_empty_world)
    (by decide)

/-- Claim C10 witness, at a world whose single instance was made
non-shareable by a mutable front() after one push. -/
theorem c10_witness :
    (instGet (wCopy (applyW WOp.frontMut 0 (applyW (WOp.push 'x' 1) 0
          (wNew (⟨[], 0, []⟩ : World Char Nat)))) 0).insts
        (applyW WOp.frontMut 0 (applyW (WOp.push 'x' 1) 0
          (wNew (⟨[], 0, []⟩ : World Char Nat)))).insts.length).sid =
      some (applyW WOp.frontMut 0 (applyW (WOp.push 'x' 1) 0
        (wNew (⟨[], 0, []⟩ : World Char Nat)))).next ∧
    heapFind (applyW WOp.frontMut 0 (applyW (WOp.push 'x' 1) 0
        (wNew (⟨[], 0, []⟩ : World Char Nat)))).heap
      (applyW WOp.frontMut 0 (applyW (WOp.push 'x' 1) 0
        (wNew (⟨[], 0, []⟩ : World Char Nat)))).next = none ∧
    (∀ j, j < (applyW WOp.frontMut 0 (applyW (WOp.push 'x' 1) 0
        (wNew (⟨[], 0, []⟩ : World Char Nat)))).insts.length →
      (instGet (wCopy (applyW WOp.frontMut 0 (applyW (WOp.push 'x' 1) 0
          (wNew (⟨[], 0, []⟩ : World Char Nat)))) 0).insts j).sid ≠
        some (applyW WOp.frontMut 0 (applyW (WOp.push 'x' 1) 0
          (wNew (⟨[], 0, []⟩ : World Char Nat)))).next) ∧
    ObsEqS
      (viewOf (wCopy (applyW WOp.frontMut 0 (applyW (WOp.push 'x' 1) 0
          (wNew (⟨[], 0, []⟩ : World Char Nat)))) 0)
        (applyW WOp.frontMut 0 (applyW (WOp.push 'x' 1) 0
          (wNew (⟨[], 0, []⟩ : World Char Nat)))).insts.length)
      (viewOf (applyW WOp.frontMut 0 (applyW (WOp.push 'x' 1) 0
        (wNew (⟨[], 0, []⟩ : World Char Nat)))) 0) ∧
    (instGet (wCopy (applyW WOp.frontMut 0 (applyW (WOp.push 'x' 1) 0
          (wNew (⟨[], 0, []⟩ : World Char Nat)))) 0).insts
        (applyW WOp.frontMut 0 (applyW (WOp.push 'x' 1) 0
          (wNew (⟨[], 0, []⟩ : World Char Nat)))).insts.length).shareable =
      true ∧
    (instGet (wCopy (wCopy (applyW WOp.frontMut 0 (applyW (WOp.push 'x' 1) 0
            (wNew (⟨[], 0, []⟩ : World Char Nat)))) 0)
          (applyW WOp.frontMut 0 (applyW (WOp.push 'x' 1) 0
            (wNew (⟨[], 0, []⟩ : World Char Nat)))).insts.length).insts
        (wCopy (applyW WOp.frontMut 0 (applyW (WOp.push 'x' 1) 0
          (wNew (⟨[], 0, []⟩ : World Char Nat)))) 0).insts.length).sid =
      (instGet (wCopy (applyW WOp.frontMut 0 (applyW (WOp.push 'x' 1) 0
          (wNew (⟨[], 0, []⟩ : World Char Nat)))) 0).insts
        (applyW WOp.frontMut 0 (applyW (WOp.push 'x' 1) 0
          (wNew (⟨[], 0, []⟩ : World Char Nat)))).insts.length).sid :=
  c10_copy_of_nonshareable
    (applyW WOp.frontMut 0 (applyW (WOp.push 'x' 1) 0
      (wNew (⟨[], 0, []⟩ : World Char Nat)))) 0
    (wf_applyW
      (wf_applyW (wf_wNew wf_empty_world) (by decide) (WOp.push 'x' 1))
      (by decide) WOp.frontMut)
    (by decide) (by decide)

end ExcStack
